import Mathlib

/-!
Verification development for the `three2six` fixer pipeline
(`src/three2six/fixers.py`).

The development shallowly embeds the parts of the code that the claims
are about:

* the version window check of `FixerBase.is_required_for` (Python compares
  the dotted version *strings* with the built-in string ordering);
* the deterministic field ordering `node_field_sort_key` used by the
  structural rewriting code;
* the future-import fixers (`FutureImportFixerBase`);
* the keyword-only-argument fixer (`InlineKWOnlyArgsFixer`);
* the structural expansion fixer (`UnpackingGeneralizationsFixer`) over a
  faithful fragment of the Python `ast` node language.

Machine integers play no role; Python lists are Lean `List`s, Python sets
of import pairs are `Finset`s, in-place `ast` mutation is modelled by
explicit state passing, and raised exceptions are modelled with
`Except String`.
-/

namespace ThreeToSix

/-! ## Python string comparison

`FixerBase.is_required_for` compares Python `str` values with `<=`, which
is lexicographic comparison of code points.  We embed that comparison
directly so that the version check can be evaluated. -/

/-- Lexicographic strict comparison of character lists, matching Python's
`str` ordering for the characters of the two strings. -/
def pyCharsLt : List Char → List Char → Bool
  | [], [] => false
  | [], _ :: _ => true
  | _ :: _, [] => false
  | c :: cs, d :: ds => if c = d then pyCharsLt cs ds else decide (c.toNat < d.toNat)

/-- Python `a <= b` on strings: lexicographic less-or-equal. -/
def pyStrLe (a b : String) : Bool :=
  a.data = b.data || pyCharsLt a.data b.data

/-! ## Version model (`VersionInfo`, `FixerBase.is_required_for`)

In the source a version is just a dotted string such as `"3.4"`, and
`is_required_for` is
`nfo.apply_since <= version <= nfo.apply_until` on strings. -/

/-- `VersionInfo` from `fixers.py` (the fields used by `is_required_for`). -/
structure VersionInfo where
  apply_since : String
  apply_until : String
deriving DecidableEq

/-- `FixerBase.is_required_for`: string comparison
`nfo.apply_since <= version <= nfo.apply_until`. -/
def is_required_for (nfo : VersionInfo) (version : String) : Bool :=
  pyStrLe nfo.apply_since version && pyStrLe version nfo.apply_until

/-- The `version_info` window of `UnpackingGeneralizationsFixer`:
`apply_since="2.0", apply_until="3.4"`. -/
def upgVersionInfo : VersionInfo := { apply_since := "2.0", apply_until := "3.4" }

/-- Modelled from the spec: "an ordered value comparable by dotted numeric
components (e.g. major.minor). ... equality and comparison must match
standard `<major>.<minor>` ordering including two-digit minors."  A dotted
version is compared as the pair of its numeric components. -/
def numericVersionLe (a b : Nat × Nat) : Bool :=
  decide (a.1 < b.1) || (decide (a.1 = b.1) && decide (a.2 ≤ b.2))

/-- Decimal digits to a number (for the spec-modelled version parse). -/
def digitsToNat : List Char → Nat → Nat
  | [], acc => acc
  | c :: cs, acc => digitsToNat cs (acc * 10 + (c.val.toNat - 48))

/-- Split a character list at the first `'.'`. -/
def splitAtDot : List Char → List Char × List Char
  | [] => ([], [])
  | c :: cs =>
    if c = '.' then ([], cs)
    else
      let (a, b) := splitAtDot cs
      (c :: a, b)

/-- Modelled from the spec: the numeric `<major>.<minor>` components of a
dotted version string such as `"3.10"`. -/
def versionComponents (s : String) : Nat × Nat :=
  let (a, b) := splitAtDot s.data
  (digitsToNat a 0, digitsToNat b 0)

/-! ## Field ordering (`node_field_sort_key`)

```python
STMTLIST_FIELD_NAMES = {"body", "orelse", "finalbody"}

def node_field_sort_key(elem):
    field_name, field = elem
    return (field_name not in STMTLIST_FIELD_NAMES, field_name)
```

and fields are visited as `sorted(ast.iter_fields(node), key=node_field_sort_key)`.
Python's `sorted` is a stable sort; we embed it as a stable insertion
sort, which produces the same list for any comparison key. -/

/-- `STMTLIST_FIELD_NAMES` from `fixers.py`. -/
def STMTLIST_FIELD_NAMES : List String := ["body", "orelse", "finalbody"]

/-- `node_field_sort_key`: the sort key of a `(field_name, field)` pair. -/
def node_field_sort_key {α : Type} (elem : String × α) : Bool × String :=
  (!(STMTLIST_FIELD_NAMES.contains elem.1), elem.1)

/-- Less-or-equal on sort keys: lexicographic on `Bool × String` with
`false < true` and Python string order, exactly the tuple order Python's
`sorted` uses for the key. -/
def fieldKeyLe {α : Type} (a b : String × α) : Bool :=
  let ka := node_field_sort_key a
  let kb := node_field_sort_key b
  (!ka.1 && kb.1) || (ka.1 = kb.1 && pyStrLe ka.2 kb.2)

/-- Stable insertion into a sorted list: the new element goes before the
first element that is not strictly smaller.  Together with `pySorted`
this reproduces the output of Python's stable `sorted`. -/
def insertStable {α : Type} (le : α → α → Bool) (x : α) : List α → List α
  | [] => [x]
  | y :: ys => if le y x && !(le x y) then y :: insertStable le x ys else x :: y :: ys

/-- Stable sort (same output as Python's `sorted` for the given key). -/
def pySorted {α : Type} (le : α → α → Bool) : List α → List α
  | [] => []
  | x :: xs => insertStable le x (pySorted le xs)

/-- `sorted(fields, key=node_field_sort_key)`. -/
def sortFields {α : Type} (fields : List (String × α)) : List (String × α) :=
  pySorted fieldKeyLe fields

/-! ## The `ast` fragment

A faithful fragment of the Python `ast` node language covering the node
kinds the `UnpackingGeneralizationsFixer` creates and inspects.  A
`keyword` node is a pair (its `arg` attribute, a `str` or `None`, and its
`value`); `ast.Index` wraps subscript slices as in Python 3.6; `ctx`
markers (`Load`/`Store`/`Del`) are childless nodes.  `Lambda`/`FunctionDef`
parameter lists are the parameter names (the `arguments` node carries no
expressions in this fragment). -/

/-- Expression context markers `ast.Load` / `ast.Store` / `ast.Del`. -/
inductive Ctx where
  | Load
  | Store
  | Del
deriving DecidableEq

/-- Expression nodes. -/
inductive Expr where
  | Name (id : String) (ctx : Ctx)
  | Num (n : Int)
  | Str (s : String)
  | NameConstant (value : Option Bool)
  | Starred (value : Expr) (ctx : Ctx)
  | Call (func : Expr) (args : List Expr) (keywords : List (Option String × Expr))
  | ListE (elts : List Expr) (ctx : Ctx)
  | TupleE (elts : List Expr) (ctx : Ctx)
  | SetE (elts : List Expr)
  | DictE (keys : List (Option Expr)) (values : List Expr)
  | Attribute (value : Expr) (attr : String) (ctx : Ctx)
  | Subscript (value : Expr) (slice : Expr) (ctx : Ctx)
  | IndexE (value : Expr)
  | Lambda (params : List String) (body : Expr)

/-- Statement nodes.  `IfStmt` carries the two statement-list fields
`body` and `orelse`; `FunctionDef` carries the statement-list field
`body` and the expression list `decorator_list`. -/
inductive Stmt where
  | Assign (targets : List Expr) (value : Expr)
  | ExprStmt (value : Expr)
  | Return (value : Option Expr)
  | Delete (targets : List Expr)
  | FunctionDef (name : String) (params : List String) (body : List Stmt)
      (decorator_list : List Expr)
  | IfStmt (test : Expr) (body : List Stmt) (orelse : List Stmt)

/-- An `ast.Module`. -/
structure Module where
  body : List Stmt

/-! ## `UnpackingGeneralizationsFixer`: detection

```python
has_starred_arg = False
for arg in elts:
    if has_starred_arg:
        return True
    has_starred_arg = isinstance(arg, ast.Starred)
return False
```
-/

/-- `isinstance(arg, ast.Starred)`. -/
def isStarredNode : Expr → Bool
  | .Starred _ _ => true
  | _ => false

/-- The scanning loop of `has_args_unpacking`. -/
def scanStarred : List Expr → Bool → Bool
  | [], _ => false
  | arg :: rest, has_starred_arg =>
    if has_starred_arg then true else scanStarred rest (isStarredNode arg)

/-- `UnpackingGeneralizationsFixer.has_args_unpacking`.  The source raises
`TypeError` on other node kinds; every call site guards with
`isinstance(..., ArgUnpackNodes)`, so the catch-all returns `false`. -/
def has_args_unpacking : Expr → Bool
  | .Call _ args _ => scanStarred args false
  | .ListE elts _ => scanStarred elts false
  | .TupleE elts _ => scanStarred elts false
  | .SetE elts => scanStarred elts false
  | _ => false

/-- The keyword-scanning loop of `has_kwargs_unpacking` for calls
(`kw.arg is None` marks a `**` spread). -/
def scanKwStarred : List (Option String × Expr) → Bool → Bool
  | [], _ => false
  | kw :: rest, has_kwstarred_arg =>
    if has_kwstarred_arg then true else scanKwStarred rest kw.1.isNone

/-- The key-scanning loop of `has_kwargs_unpacking` for dict literals
(a `None` key marks a `**` spread). -/
def scanKeyNone : List (Option Expr) → Bool → Bool
  | [], _ => false
  | key :: rest, has_kwstarred_arg =>
    if has_kwstarred_arg then true else scanKeyNone rest key.isNone

/-- `UnpackingGeneralizationsFixer.has_kwargs_unpacking` (catch-all as in
`has_args_unpacking`). -/
def has_kwargs_unpacking : Expr → Bool
  | .Call _ _ keywords => scanKwStarred keywords false
  | .DictE keys _ => scanKeyNone keys false
  | _ => false

/-- `isinstance(val_node, ArgUnpackNodes)` with
`ArgUnpackNodes = (ast.Call, ast.List, ast.Tuple, ast.Set)`. -/
def isArgUnpackNode : Expr → Bool
  | .Call _ _ _ => true
  | .ListE _ _ => true
  | .TupleE _ _ => true
  | .SetE _ => true
  | _ => false

/-- `isinstance(val_node, KwArgUnpackNodes)` with
`KwArgUnpackNodes = (ast.Call, ast.Dict)`. -/
def isKwArgUnpackNode : Expr → Bool
  | .Call _ _ _ => true
  | .DictE _ _ => true
  | _ => false

/-! ## `UnpackingGeneralizationsFixer`: expansion -/

/-- The fresh temporary name `f"upg_args_{self._tmp_var_index}"`. -/
def upgArgsName (k : Nat) : String := "upg_args_" ++ toString k

/-- The fresh temporary name `f"upg_kwargs_{self._tmp_var_index}"`. -/
def upgKwargsName (k : Nat) : String := "upg_kwargs_" ++ toString k

/-- The per-element statement of `expand_args_unpacking`: an
`upg_args_N.extend(...)` call for a spread element, an
`upg_args_N.append(...)` call for a plain element. -/
def argElemStmt (tmp : String) (arg : Expr) : Stmt :=
  match arg with
  | .Starred v _ =>
      .ExprStmt (.Call (.Attribute (.Name tmp .Load) "extend" .Load) [v] [])
  | a =>
      .ExprStmt (.Call (.Attribute (.Name tmp .Load) "append" .Load) [a] [])

/-- `UnpackingGeneralizationsFixer.expand_args_unpacking`.  Returns
`(prefix_nodes, new_val_node, del_nodes)` and the incremented temp-name
counter. -/
def expand_args_unpacking (val_node : Expr) (k : Nat) :
    Except String ((List Stmt × Expr × List Stmt) × Nat) :=
  let tmp := upgArgsName k
  let init : Stmt := .Assign [.Name tmp .Store] (.ListE [] .Load)
  let starredTmp : Expr := .Starred (.Name tmp .Load) .Load
  let delNode : Stmt := .Delete [.Name tmp .Del]
  match val_node with
  | .Call f args kws =>
      .ok ((init :: args.map (argElemStmt tmp), .Call f [starredTmp] kws, [delNode]), k + 1)
  | .ListE elts _ =>
      .ok ((init :: elts.map (argElemStmt tmp),
            .Call (.Name "list" .Load) [starredTmp] [], [delNode]), k + 1)
  | .TupleE elts _ =>
      .ok ((init :: elts.map (argElemStmt tmp),
            .Call (.Name "tuple" .Load) [starredTmp] [], [delNode]), k + 1)
  | .SetE elts =>
      .ok ((init :: elts.map (argElemStmt tmp),
            .Call (.Name "set" .Load) [starredTmp] [], [delNode]), k + 1)
  | _ => .error "Unexpected val_node"

/-- The per-item statement of `expand_kwargs_unpacking`'s `add_items` for
a `Call`'s keyword (`kw.arg` is a `str` or `None`): an
`upg_kwargs_N.update(...)` call for a `**` entry, a keyed assignment
`upg_kwargs_N["key"] = value` otherwise. -/
def kwCallItemStmt (tmp : String) (kw : Option String × Expr) : Stmt :=
  match kw with
  | (none, val) =>
      .ExprStmt (.Call (.Attribute (.Name tmp .Load) "update" .Load) [val] [])
  | (some key, val) =>
      .Assign [.Subscript (.Name tmp .Load) (.IndexE (.Str key)) .Store] val

/-- The per-item statement of `add_items` for a dict literal entry (the
key is an expression or `None`); a key that is neither an `ast.Str` nor a
`str` raises `TypeError("Invalid dict key ...")`. -/
def kwDictItemStmt (tmp : String) (item : Option Expr × Expr) : Except String Stmt :=
  match item with
  | (none, val) =>
      .ok (.ExprStmt (.Call (.Attribute (.Name tmp .Load) "update" .Load) [val] []))
  | (some key, val) =>
      match key with
      | .Str s => .ok (.Assign [.Subscript (.Name tmp .Load) (.IndexE (.Str s)) .Store] val)
      | _ => .error "Invalid dict key"

/-- The `add_items` loop over a dict literal's `(key, value)` pairs. -/
def add_items_stmts (tmp : String) : List (Option Expr × Expr) → Except String (List Stmt)
  | [] => .ok []
  | item :: rest =>
    match kwDictItemStmt tmp item with
    | .error e => .error e
    | .ok s =>
      match add_items_stmts tmp rest with
      | .error e => .error e
      | .ok ss => .ok (s :: ss)

/-- `UnpackingGeneralizationsFixer.expand_kwargs_unpacking`. -/
def expand_kwargs_unpacking (val_node : Expr) (k : Nat) :
    Except String ((List Stmt × Expr × List Stmt) × Nat) :=
  let tmp := upgKwargsName k
  let init : Stmt := .Assign [.Name tmp .Store] (.DictE [] [])
  let delNode : Stmt := .Delete [.Name tmp .Del]
  match val_node with
  | .Call f args kws =>
      .ok ((init :: kws.map (kwCallItemStmt tmp),
            .Call f args [(none, .Name tmp .Load)], [delNode]), k + 1)
  | .DictE keys values =>
      match add_items_stmts tmp (keys.zip values) with
      | .error e => .error e
      | .ok items =>
          .ok ((init :: items,
                .Call (.Name "dict" .Load) [] [(none, .Name tmp .Load)], [delNode]), k + 1)
  | _ => .error "Unexpected val_node"

/-- The args-expansion step of `make_val_node_update`, including the
source's `assert not self.has_args_unpacking(new_val_node)`. -/
def expandArgsChecked (v : Expr) (k : Nat) :
    Except String (List Stmt × Expr × List Stmt × Nat) :=
  match expand_args_unpacking v k with
  | .error e => .error e
  | .ok ((p, v', d), k') =>
      if has_args_unpacking v' then
        .error "assert failed: not has_args_unpacking(new_val_node)"
      else .ok (p, v', d, k')

/-- The kwargs-expansion step of `make_val_node_update`, including the
source's `assert not self.has_kwargs_unpacking(new_val_node)`. -/
def expandKwargsChecked (v : Expr) (k : Nat) :
    Except String (List Stmt × Expr × List Stmt × Nat) :=
  match expand_kwargs_unpacking v k with
  | .error e => .error e
  | .ok ((p, v', d), k') =>
      if has_kwargs_unpacking v' then
        .error "assert failed: not has_kwargs_unpacking(new_val_node)"
      else .ok (p, v', d, k')

/-- `UnpackingGeneralizationsFixer.make_val_node_update`: expand args
unpacking, then kwargs unpacking on the (possibly already replaced)
node. -/
def make_val_node_update (val_node : Expr) (k : Nat) :
    Except String (Option (List Stmt × Expr × List Stmt) × Nat) :=
  match (if isArgUnpackNode val_node && has_args_unpacking val_node then
           expandArgsChecked val_node k
         else .ok ([], val_node, [], k)) with
  | .error e => .error e
  | .ok (ps1, v1, ds1, k1) =>
    match (if isKwArgUnpackNode v1 && has_kwargs_unpacking v1 then
             expandKwargsChecked v1 k1
           else .ok ([], v1, [], k1)) with
    | .error e => .error e
    | .ok (ps2, v2, ds2, k2) =>
      let all_prefix_nodes := ps1 ++ ps2
      let all_del_nodes := ds1 ++ ds2
      if all_prefix_nodes.length > 0 then
        if all_del_nodes.length > 0 then
          .ok (some (all_prefix_nodes, v2, all_del_nodes), k2)
        else .error "assert failed: len(all_del_nodes) > 0"
      else .ok (none, k2)

/-! ## `UnpackingGeneralizationsFixer`: recursive field updates

`make_single_field_update` first tries `make_val_node_update` on unpacking
node kinds; if that yields no update it runs the generic
`for sub_field_name, sub_field in sorted(ast.iter_fields(field_node),
key=node_field_sort_key)` loop.  In this typed embedding the generic loop
is written out per node kind, with the sub-fields in exactly the order
`node_field_sort_key` produces for the Python field tuples, and
`make_field_update`'s `setattr` is the field replacement in the rebuilt
node.  `ctx` markers and other primitives contribute no updates and are
skipped, as in the source (recursing into a childless node returns
`None`). -/

/-- The accumulator check closing the generic field loop:
`if len(all_prefix_nodes) > 0: assert len(all_del_nodes) > 0; return ...`.
-/
def finishFields (all_prefix_nodes : List Stmt) (field_node : Expr)
    (all_del_nodes : List Stmt) (k : Nat) :
    Except String (Option (List Stmt × Expr × List Stmt) × Nat) :=
  if all_prefix_nodes.length > 0 then
    if all_del_nodes.length > 0 then
      .ok (some (all_prefix_nodes, field_node, all_del_nodes), k)
    else .error "assert failed: len(all_del_nodes) > 0"
  else .ok (none, k)

/-- The new value of a field after a `make_field_update` result (the old
value when there was no update, i.e. no `setattr`). -/
def updField {α : Type} (old : α) : Option (List Stmt × α × List Stmt) → α
  | none => old
  | some (_, new, _) => new

/-- The prefix nodes contributed by one sub-field update (none on `None`). -/
def updP {α : Type} : Option (List Stmt × α × List Stmt) → List Stmt
  | none => []
  | some (p, _, _) => p

/-- The del nodes contributed by one sub-field update (none on `None`). -/
def updD {α : Type} : Option (List Stmt × α × List Stmt) → List Stmt
  | none => []
  | some (_, _, d) => d

mutual

/-- `UnpackingGeneralizationsFixer.make_single_field_update`. -/
def make_single_field_update (field_node : Expr) (k : Nat) :
    Except String (Option (List Stmt × Expr × List Stmt) × Nat) :=
  match (if isArgUnpackNode field_node || isKwArgUnpackNode field_node then
           make_val_node_update field_node k
         else .ok (none, k)) with
  | .error e => .error e
  | .ok (some u, k') => .ok (some u, k')
  | .ok (none, k') => sub_fields_update field_node k'
termination_by (sizeOf field_node, 3)

/-- The generic sorted-sub-fields loop of `make_single_field_update`,
per node kind. -/
def sub_fields_update (field_node : Expr) (k : Nat) :
    Except String (Option (List Stmt × Expr × List Stmt) × Nat) :=
  match field_node with
  | .Name _ _ => .ok (none, k)
  | .Num _ => .ok (none, k)
  | .Str _ => .ok (none, k)
  | .NameConstant _ => .ok (none, k)
  | .Starred v c =>
    -- fields sorted: ctx, value
    match make_single_field_update v k with
    | .error e => .error e
    | .ok (r, k1) =>
      finishFields (updP r) (.Starred (updField v r) c) (updD r) k1
  | .Call f args kws =>
    -- fields sorted: args, func, keywords
    match make_list_field_update args k with
    | .error e => .error e
    | .ok (r1, k1) =>
      match make_single_field_update f k1 with
      | .error e => .error e
      | .ok (r2, k2) =>
        match make_keywords_field_update kws k2 with
        | .error e => .error e
        | .ok (r3, k3) =>
          finishFields (updP r1 ++ updP r2 ++ updP r3)
            (.Call (updField f r2) (updField args r1) (updField kws r3))
            (updD r1 ++ updD r2 ++ updD r3) k3
  | .ListE elts c =>
    -- fields sorted: ctx, elts
    match make_list_field_update elts k with
    | .error e => .error e
    | .ok (r, k1) =>
      finishFields (updP r) (.ListE (updField elts r) c) (updD r) k1
  | .TupleE elts c =>
    match make_list_field_update elts k with
    | .error e => .error e
    | .ok (r, k1) =>
      finishFields (updP r) (.TupleE (updField elts r) c) (updD r) k1
  | .SetE elts =>
    match make_list_field_update elts k with
    | .error e => .error e
    | .ok (r, k1) =>
      finishFields (updP r) (.SetE (updField elts r)) (updD r) k1
  | .DictE keys values =>
    -- fields sorted: keys, values
    match make_opt_list_field_update keys k with
    | .error e => .error e
    | .ok (r1, k1) =>
      match make_list_field_update values k1 with
      | .error e => .error e
      | .ok (r2, k2) =>
        finishFields (updP r1 ++ updP r2)
          (.DictE (updField keys r1) (updField values r2)) (updD r1 ++ updD r2) k2
  | .Attribute v a c =>
    -- fields sorted: attr, ctx, value
    match make_single_field_update v k with
    | .error e => .error e
    | .ok (r, k1) =>
      finishFields (updP r) (.Attribute (updField v r) a c) (updD r) k1
  | .Subscript v s c =>
    -- fields sorted: ctx, slice, value
    match make_single_field_update s k with
    | .error e => .error e
    | .ok (r1, k1) =>
      match make_single_field_update v k1 with
      | .error e => .error e
      | .ok (r2, k2) =>
        finishFields (updP r1 ++ updP r2)
          (.Subscript (updField v r2) (updField s r1) c) (updD r1 ++ updD r2) k2
  | .IndexE v =>
    match make_single_field_update v k with
    | .error e => .error e
    | .ok (r, k1) =>
      finishFields (updP r) (.IndexE (updField v r)) (updD r) k1
  | .Lambda params body =>
    -- fields sorted: body (a STMTLIST name, so first), args.
    -- An update inside the lambda body is converted: the lambda becomes a
    -- temporary FunctionDef (make_temp_lambda_as_def) whose body is the
    -- hoisted statements followed by a return of the (updated) body, the
    -- lambda's place is taken by a Name reference, and the inner del
    -- nodes are replaced by a deletion of the temporary function name.
    match make_single_field_update body k with
    | .error e => .error e
    | .ok (r, k1) =>
      match r with
      | none => finishFields [] (.Lambda params body) [] k1
      | some (p, body', _d) =>
        let tempDef : Stmt :=
          .FunctionDef "temp_lambda_as_def" params (p ++ [.Return (some body')]) []
        finishFields [tempDef] (.Name "temp_lambda_as_def" .Load)
          [.Delete [.Name "temp_lambda_as_def" .Del]] k1
termination_by (sizeOf field_node, 2)

/-- `UnpackingGeneralizationsFixer.make_list_field_update`. -/
def make_list_field_update (field_nodes : List Expr) (k : Nat) :
    Except String (Option (List Stmt × List Expr × List Stmt) × Nat) :=
  match field_nodes with
  | [] => .ok (none, k)
  | x :: rest =>
    match list_update_loop (x :: rest) k with
    | .error e => .error e
    | .ok ((p, newNodes, d), k') =>
      if p.length > 0 then
        if d.length > 0 then
          if newNodes.length > 0 then
            if newNodes.length = (x :: rest).length then .ok (some (p, newNodes, d), k')
            else .error "assert failed: len(new_field_nodes) == len(field_nodes)"
          else .error "assert failed: len(new_field_nodes) > 0"
        else .error "assert failed: len(all_del_nodes) > 0"
      else .ok (none, k')
termination_by (sizeOf field_nodes, 1)

/-- The element loop of `make_list_field_update`. -/
def list_update_loop (field_nodes : List Expr) (k : Nat) :
    Except String ((List Stmt × List Expr × List Stmt) × Nat) :=
  match field_nodes with
  | [] => .ok (([], [], []), k)
  | field_node :: rest =>
    match make_single_field_update field_node k with
    | .error e => .error e
    | .ok (r, k1) =>
      match list_update_loop rest k1 with
      | .error e => .error e
      | .ok ((restP, restN, restD), k2) =>
        match r with
        | none => .ok ((restP, field_node :: restN, restD), k2)
        | some (p, newField, d) => .ok ((p ++ restP, newField :: restN, d ++ restD), k2)
termination_by (sizeOf field_nodes, 0)

/-- `make_list_field_update` on a `keywords` list: each `ast.keyword`
node's only AST sub-field is its `value`. -/
def make_keywords_field_update (kws : List (Option String × Expr)) (k : Nat) :
    Except String (Option (List Stmt × List (Option String × Expr) × List Stmt) × Nat) :=
  match kws with
  | [] => .ok (none, k)
  | x :: rest =>
    match keywords_update_loop (x :: rest) k with
    | .error e => .error e
    | .ok ((p, newNodes, d), k') =>
      if p.length > 0 then
        if d.length > 0 then
          if newNodes.length > 0 then
            if newNodes.length = (x :: rest).length then .ok (some (p, newNodes, d), k')
            else .error "assert failed: len(new_field_nodes) == len(field_nodes)"
          else .error "assert failed: len(new_field_nodes) > 0"
        else .error "assert failed: len(all_del_nodes) > 0"
      else .ok (none, k')
termination_by (sizeOf kws, 1)

/-- The element loop for `keywords` lists. -/
def keywords_update_loop (kws : List (Option String × Expr)) (k : Nat) :
    Except String ((List Stmt × List (Option String × Expr) × List Stmt) × Nat) :=
  match kws with
  | [] => .ok (([], [], []), k)
  | (a, v) :: rest =>
    match make_single_field_update v k with
    | .error e => .error e
    | .ok (r, k1) =>
      match keywords_update_loop rest k1 with
      | .error e => .error e
      | .ok ((restP, restN, restD), k2) =>
        match r with
        | none => .ok ((restP, (a, v) :: restN, restD), k2)
        | some (p, v', d) => .ok ((p ++ restP, (a, v') :: restN, d ++ restD), k2)
termination_by (sizeOf kws, 0)

/-- `make_list_field_update` on a `Dict`'s `keys` list.  A `None` entry
(the key of a `**` spread) crashes the source (`ast.iter_fields(None)`
raises `AttributeError`), embedded as an error. -/
def make_opt_list_field_update (keys : List (Option Expr)) (k : Nat) :
    Except String (Option (List Stmt × List (Option Expr) × List Stmt) × Nat) :=
  match keys with
  | [] => .ok (none, k)
  | x :: rest =>
    match opt_list_update_loop (x :: rest) k with
    | .error e => .error e
    | .ok ((p, newNodes, d), k') =>
      if p.length > 0 then
        if d.length > 0 then
          if newNodes.length > 0 then
            if newNodes.length = (x :: rest).length then .ok (some (p, newNodes, d), k')
            else .error "assert failed: len(new_field_nodes) == len(field_nodes)"
          else .error "assert failed: len(new_field_nodes) > 0"
        else .error "assert failed: len(all_del_nodes) > 0"
      else .ok (none, k')
termination_by (sizeOf keys, 1)

/-- The element loop for `keys` lists of dict literals. -/
def opt_list_update_loop (keys : List (Option Expr)) (k : Nat) :
    Except String ((List Stmt × List (Option Expr) × List Stmt) × Nat) :=
  match keys with
  | [] => .ok (([], [], []), k)
  | none :: _ => .error "AttributeError: NoneType object has no attribute _fields"
  | some key :: rest =>
    match make_single_field_update key k with
    | .error e => .error e
    | .ok (r, k1) =>
      match opt_list_update_loop rest k1 with
      | .error e => .error e
      | .ok ((restP, restN, restD), k2) =>
        match r with
        | none => .ok ((restP, some key :: restN, restD), k2)
        | some (p, key', d) => .ok ((p ++ restP, some key' :: restN, d ++ restD), k2)
termination_by (sizeOf keys, 0)

end

/-! ## `UnpackingGeneralizationsFixer.apply_body_updates`

```python
def apply_body_updates(self, body):
    initial_len_body = len(body)
    prev_len_body = -1
    while prev_len_body != len(body):
        if len(body) > initial_len_body * 100:
            raise Exception("Expansion overflow")
        prev_len_body = len(body)
        o = 0
        body_copy = list(body)
        for i, node in enumerate(body_copy):
            fields = sorted(ast.iter_fields(node), key=node_field_sort_key)
            for field_name, field in fields:
                if not isinstance(field, (list, ast.AST)):
                    continue
                if is_block_field(field_name, field):
                    self.apply_body_updates(field)
                    continue
                maybe_body_update = self.make_field_update(node, field_name, field)
                if maybe_body_update is None:
                    continue
                prefix_nodes, del_nodes = maybe_body_update
                body[i + o:i + o] = prefix_nodes
                o += len(prefix_nodes)
                if isinstance(body[i + o], ast.Return):
                    continue
                o += 1
                body[i + o:i + o] = del_nodes
```

The source mutates `body` in place while iterating a snapshot of it and
reads `body[i + o]` by index.  The embedding carries the materialised
body list, the Python offset `o`, the true number of insertions `T` made
by the pass so far (the snapshot statement at index `i` currently sits at
index `i + T`: every insertion happens at an index not beyond the current
statement), and `p`, the current index of the statement being processed
(`setattr` on the statement is `List.set` at `p`).  `o` and `T` coincide
as long as every `del_nodes` list inserted so far had length one, which
is exactly what the `o += 1` bookkeeping of the source assumes.

Recursion into nested statement-list fields is guarded by an explicit
depth budget (Python's recursion limit); the per-block `while` loop is
guarded by an iteration budget that its overflow check keeps from ever
being exhausted. -/

/-- Python slice insertion `body[q:q] = xs` (past-the-end indices append,
as in Python). -/
def insertAt (body : List Stmt) (q : Nat) (xs : List Stmt) : List Stmt :=
  body.take q ++ xs ++ body.drop q

/-- `isinstance(node, ast.Return)`. -/
def isReturnStmt : Stmt → Bool
  | .Return _ => true
  | _ => false

/-- The pass state: the current body, Python's offset `o`, and the true
insertion count `T`. -/
structure PassState where
  body : List Stmt
  o : Nat
  T : Nat

/-- `setattr` on the statement currently at index `p`. -/
def setNode (st : PassState) (p : Nat) (n : Stmt) : PassState :=
  { st with body := st.body.set p n }

/-- The splice step of the inner field loop: insert `prefix_nodes` at
`i + o`, then, unless `body[i + o]` is a `Return` statement, insert
`del_nodes` after it.  Returns the new state and the new index of the
statement being processed (it moves when an insertion lands at or before
it).  A `body[i + o]` read past the end is Python's `IndexError`. -/
def splice (i : Nat) (st : PassState) (p : Nat)
    (prefix_nodes del_nodes : List Stmt) : Except String (PassState × Nat) :=
  let body1 := insertAt st.body (i + st.o) prefix_nodes
  let p1 := if i + st.o ≤ p then p + prefix_nodes.length else p
  let o1 := st.o + prefix_nodes.length
  let T1 := st.T + prefix_nodes.length
  match body1[i + o1]? with
  | none => Except.error "IndexError"
  | some s =>
    if isReturnStmt s then
      Except.ok ({ body := body1, o := o1, T := T1 }, p1)
    else
      let o2 := o1 + 1
      let body2 := insertAt body1 (i + o2) del_nodes
      let p2 := if i + o2 ≤ p1 then p1 + del_nodes.length else p1
      Except.ok ({ body := body2, o := o2, T := T1 + del_nodes.length }, p2)

/-- `setattr` the updated node and splice its hoisted statements (the
`maybe_body_update is not None` arm of the field loop). -/
def applyFieldUpd (i : Nat) (st : PassState) (p : Nat) (node : Stmt)
    (prefix_nodes del_nodes : List Stmt) : Except String (PassState × Nat) :=
  splice i (setNode st p node) p prefix_nodes del_nodes

/-- Apply the state effect of a `make_field_update` result for one
non-block field: on `None` nothing happens; otherwise the rebuilt node
`node1` is `setattr`-ed at index `p` and the hoisted statements are
spliced. -/
def updState (i : Nat) (st : PassState) (p : Nat) (node1 : Stmt) :
    {α : Type} → Option (List Stmt × α × List Stmt) → Except String (PassState × Nat)
  | _, none => .ok (st, p)
  | _, some (pfx, _, dels) => applyFieldUpd i st p node1 pfx dels

mutual

/-- `UnpackingGeneralizationsFixer.apply_body_updates` for one statement
list, at recursion-depth budget `d`. -/
def apply_body_updates (d : Nat) (body : List Stmt) (k : Nat) :
    Except String (List Stmt × Nat) :=
  match d with
  | 0 => Except.error "RecursionError"
  | d + 1 => abuLoop d body.length (100 * body.length + 3) body none k
termination_by (d, 0, 0)

/-- The `while prev_len_body != len(body)` loop, with the
`len(body) > initial_len_body * 100` overflow check first, as in the
source.  `prev` is `prev_len_body` (`none` is the initial `-1`). -/
def abuLoop (d init fuel : Nat) (body : List Stmt) (prev : Option Nat) (k : Nat) :
    Except String (List Stmt × Nat) :=
  if prev = some body.length then Except.ok (body, k)
  else if body.length > init * 100 then Except.error "Expansion overflow"
  else match fuel with
    | 0 => Except.error "loop budget exhausted"
    | fuel + 1 =>
      match abuPass d body 0 { body := body, o := 0, T := 0 } k with
      | .error e => .error e
      | .ok (b', k') => abuLoop d init fuel b' (some body.length) k'
termination_by (d, 3, fuel)

/-- The `for i, node in enumerate(body_copy)` loop of one pass. -/
def abuPass (d : Nat) (snapshot : List Stmt) (i : Nat) (st : PassState) (k : Nat) :
    Except String (List Stmt × Nat) :=
  match snapshot with
  | [] => Except.ok (st.body, k)
  | node :: rest =>
    match processStmt d i node st k with
    | .error e => .error e
    | .ok (st', k') => abuPass d rest (i + 1) st' k'
termination_by (d, 2, sizeOf snapshot)

/-- The sorted field loop of one statement: statement-list fields recurse
into `apply_body_updates` (no splicing); other fields run
`make_field_update` — the field update with `setattr` — followed by the
splice.  Fields appear in `node_field_sort_key` order. -/
def processStmt (d : Nat) (i : Nat) (node : Stmt) (st : PassState) (k : Nat) :
    Except String (PassState × Nat) :=
  let p := i + st.T
  match node with
  | .Assign targets value =>
    -- fields sorted: targets, value
    match make_list_field_update targets k with
    | .error e => .error e
    | .ok (r1, k1) =>
      let targets1 := updField targets r1
      match updState i st p (.Assign targets1 value) r1 with
      | .error e => .error e
      | .ok (st1, p1) =>
        match make_single_field_update value k1 with
        | .error e => .error e
        | .ok (r2, k2) =>
          let value1 := updField value r2
          match updState i st1 p1 (.Assign targets1 value1) r2 with
          | .error e => .error e
          | .ok (st2, _) => .ok (st2, k2)
  | .ExprStmt value =>
    -- fields sorted: value
    match make_single_field_update value k with
    | .error e => .error e
    | .ok (r, k1) =>
      let value1 := updField value r
      match updState i st p (.ExprStmt value1) r with
      | .error e => .error e
      | .ok (st1, _) => .ok (st1, k1)
  | .Return value =>
    -- fields sorted: value (`None` is a primitive and is skipped)
    match value with
    | none => .ok (st, k)
    | some v =>
      match make_single_field_update v k with
      | .error e => .error e
      | .ok (r, k1) =>
        let v1 := updField v r
        match updState i st p (.Return (some v1)) r with
        | .error e => .error e
        | .ok (st1, _) => .ok (st1, k1)
  | .Delete targets =>
    -- fields sorted: targets
    match make_list_field_update targets k with
    | .error e => .error e
    | .ok (r, k1) =>
      let targets1 := updField targets r
      match updState i st p (.Delete targets1) r with
      | .error e => .error e
      | .ok (st1, _) => .ok (st1, k1)
  | .FunctionDef name params fbody decs =>
    -- fields sorted: body (stmt list), args (no expressions in this
    -- fragment), decorator_list, name, returns
    match apply_body_updates d fbody k with
    | .error e => .error e
    | .ok (fbody', k1) =>
      let st1 := setNode st p (.FunctionDef name params fbody' decs)
      match make_list_field_update decs k1 with
      | .error e => .error e
      | .ok (r, k2) =>
        let decs1 := updField decs r
        match updState i st1 p (.FunctionDef name params fbody' decs1) r with
        | .error e => .error e
        | .ok (st2, _) => .ok (st2, k2)
  | .IfStmt test tbody orelse =>
    -- fields sorted: body (stmt list), orelse (stmt list), test
    match apply_body_updates d tbody k with
    | .error e => .error e
    | .ok (tbody', k1) =>
      let st1 := setNode st p (.IfStmt test tbody' orelse)
      match apply_body_updates d orelse k1 with
      | .error e => .error e
      | .ok (orelse', k2) =>
        let st2 := setNode st1 p (.IfStmt test tbody' orelse')
        match make_single_field_update test k2 with
        | .error e => .error e
        | .ok (r, k3) =>
          let test1 := updField test r
          match updState i st2 p (.IfStmt test1 tbody' orelse') r with
          | .error e => .error e
          | .ok (st3, _) => .ok (st3, k3)
termination_by (d, 1, sizeOf node)

end

/-- `UnpackingGeneralizationsFixer.__call__`: run `apply_body_updates` on
the module body, with the instance counter `self._tmp_var_index`
starting at `0`. -/
def unpacking_generalizations_fixer (d : Nat) (tree : Module) : Except String Module :=
  match apply_body_updates d tree.body 0 with
  | .error e => .error e
  | .ok (body', _) => .ok { body := body' }

/-! ## `FutureImportFixerBase`

```python
class FutureImportFixerBase(FixerBase):
    future_name: str
    def __call__(self, cfg, tree):
        self.required_imports.add(("__future__", self.future_name))
        return tree
```

`required_imports` is the Python set created by `FixerBase.__init__`
(`self.required_imports = set()`), modelled as a `Finset`. -/

/-- `FutureImportFixerBase.__call__` for a subclass with the given
`future_name` (e.g. `"generator_stop"` for `GeneratorStopFutureFixer`,
`"unicode_literals"` for `UnicodeLiteralsFutureFixer`): add the pair to
the instance's `required_imports` set and return the tree as is. -/
def future_import_fixer_call (future_name : String)
    (required_imports : Finset (String × String)) (tree : Module) :
    Finset (String × String) × Module :=
  (insert ("__future__", future_name) required_imports, tree)

/-! ## `InlineKWOnlyArgsFixer`

```python
def visit_FunctionDef(self, node):
    if not node.args.kwonlyargs:
        return node
    if node.args.kwarg:
        kw_name = node.args.kwarg.arg
    else:
        kw_name = "kwargs"
        node.args.kwarg = ast.arg(arg=kw_name, annotation=None)
    kwonlyargs = reversed(node.args.kwonlyargs)
    kw_defaults = reversed(node.args.kw_defaults)
    for arg, default in zip(kwonlyargs, kw_defaults):
        arg_name = arg.arg
        if default is None:
            new_node = <arg_name = kw_name[arg_name]>
        else:
            if not isinstance(default, IMMUTABLE_EXPR_TYPES):
                raise Exception("Keyword only arguments must be immutable. ...")
            new_node = <arg_name = kw_name.get(arg_name, default)>
        node.body.insert(0, new_node)
    node.args.kwonlyargs = []
    return node
```
-/

/-- The function-definition shape the keyword-only-argument fixer works
on: the keyword-only parameter names, their defaults (`None` for no
default), the `**` catch-all parameter name if any, and the body. -/
structure KwFunctionDef where
  name : String
  kwonlyargs : List String
  kw_defaults : List (Option Expr)
  kwarg : Option String
  body : List Stmt

/-- Modelled from the spec: `IMMUTABLE_EXPR_TYPES` is referenced by
`InlineKWOnlyArgsFixer.visit_FunctionDef` but not defined in the sources
under `src/`; per the spec a keyword-only default must be a "literal
value", so the scalar literal node kinds of the fragment qualify. -/
def isImmutableLiteral : Expr → Bool
  | .Str _ => true
  | .Num _ => true
  | .NameConstant _ => true
  | _ => false

/-- The assignment synthesized for one keyword-only parameter: a
`kwargs["name"]` subscript when there is no default, a
`kwargs.get("name", default)` call when there is one. -/
def kwOnlyAssign (kw_name arg_name : String) : Option Expr → Stmt
  | none =>
      .Assign [.Name arg_name .Store]
        (.Subscript (.Name kw_name .Load) (.IndexE (.Str arg_name)) .Load)
  | some dflt =>
      .Assign [.Name arg_name .Store]
        (.Call (.Attribute (.Name kw_name .Load) "get" .Load) [.Str arg_name, dflt] [])

/-- The `for arg, default in zip(reversed(...), reversed(...))` loop:
each synthesized assignment is inserted at the front of the body; a
non-literal default raises before any code is emitted for that
parameter. -/
def inline_kwonly_loop (kw_name : String) :
    List (String × Option Expr) → List Stmt → Except String (List Stmt)
  | [], body => .ok body
  | (arg_name, default) :: rest, body =>
    match default with
    | none => inline_kwonly_loop kw_name rest (kwOnlyAssign kw_name arg_name none :: body)
    | some dflt =>
      if isImmutableLiteral dflt then
        inline_kwonly_loop kw_name rest (kwOnlyAssign kw_name arg_name (some dflt) :: body)
      else .error "Keyword only arguments must be immutable."

/-- `InlineKWOnlyArgsFixer.visit_FunctionDef`. -/
def visit_FunctionDef_kwonly (node : KwFunctionDef) : Except String KwFunctionDef :=
  if node.kwonlyargs.isEmpty then .ok node
  else
    let kw_name :=
      match node.kwarg with
      | some n => n
      | none => "kwargs"
    match inline_kwonly_loop kw_name
        (node.kwonlyargs.reverse.zip node.kw_defaults.reverse) node.body with
    | .error e => .error e
    | .ok body' =>
      .ok { node with kwarg := some kw_name, body := body', kwonlyargs := [] }

/-! ## Order lemmas for the field-sort comparison -/

lemma pyCharsLt_trichotomy :
    ∀ as bs : List Char, pyCharsLt as bs = true ∨ pyCharsLt bs as = true ∨ as = bs := by
  intro as
  induction as with
  | nil =>
    intro bs
    cases bs with
    | nil => simp [pyCharsLt]
    | cons d ds => simp [pyCharsLt]
  | cons c cs ih =>
    intro bs
    cases bs with
    | nil => simp [pyCharsLt]
    | cons d ds =>
      by_cases h : c = d
      · subst h
        rcases ih ds with h1 | h2 | h3
        · exact Or.inl (by simp [pyCharsLt, h1])
        · exact Or.inr (Or.inl (by simp [pyCharsLt, h2]))
        · exact Or.inr (Or.inr (by rw [h3]))
      · rcases Nat.lt_trichotomy c.toNat d.toNat with h1 | h2 | h3
        · exact Or.inl (by simp [pyCharsLt, h, h1])
        · exact absurd (Char.ext (UInt32.ext h2)) h
        · have hdc : d ≠ c := fun he => h he.symm
          exact Or.inr (Or.inl (by simp [pyCharsLt, hdc, h3]))

lemma pyCharsLt_trans :
    ∀ as bs cs : List Char, pyCharsLt as bs = true → pyCharsLt bs cs = true →
      pyCharsLt as cs = true := by
  intro as
  induction as with
  | nil =>
    intro bs cs h1 h2
    cases bs with
    | nil => simpa [pyCharsLt] using h2
    | cons b bs' =>
      cases cs with
      | nil => simp [pyCharsLt] at h2
      | cons e es => simp [pyCharsLt]
  | cons c cs' ih =>
    intro bs cs h1 h2
    cases bs with
    | nil => simp [pyCharsLt] at h1
    | cons d ds =>
      cases cs with
      | nil => simp [pyCharsLt] at h2
      | cons e es =>
        by_cases hcd : c = d
        · subst hcd
          rw [pyCharsLt, if_pos rfl] at h1
          by_cases hde : c = e
          · subst hde
            rw [pyCharsLt, if_pos rfl] at h2 ⊢
            exact ih ds es h1 h2
          · rw [pyCharsLt, if_neg hde] at h2 ⊢
            exact h2
        · rw [pyCharsLt, if_neg hcd] at h1
          have hcd' : c.toNat < d.toNat := by simpa using h1
          by_cases hde : d = e
          · have hce : c ≠ e := by rw [← hde]; exact hcd
            rw [pyCharsLt, if_neg hce]
            have hce' : c.toNat < e.toNat := by rw [← hde]; exact hcd'
            simpa using hce'
          · rw [pyCharsLt, if_neg hde] at h2
            have hde' : d.toNat < e.toNat := by simpa using h2
            have hce' : c.toNat < e.toNat := Nat.lt_trans hcd' hde'
            have hce : c ≠ e := by
              intro he; subst he; exact absurd hce' (Nat.lt_irrefl _)
            rw [pyCharsLt, if_neg hce]
            simpa using hce'

lemma pyStrLe_total (a b : String) : pyStrLe a b = true ∨ pyStrLe b a = true := by
  rcases pyCharsLt_trichotomy a.data b.data with h | h | h
  · exact Or.inl (by simp [pyStrLe, h])
  · exact Or.inr (by simp [pyStrLe, h])
  · exact Or.inl (by simp [pyStrLe, h])

lemma pyStrLe_trans (a b c : String) (h1 : pyStrLe a b = true) (h2 : pyStrLe b c = true) :
    pyStrLe a c = true := by
  simp only [pyStrLe, Bool.or_eq_true, decide_eq_true_eq] at h1 h2
  rcases h1 with e1 | l1
  · rcases h2 with e2 | l2
    · simp [pyStrLe, e1, e2]
    · simp [pyStrLe, e1, l2]
  · rcases h2 with e2 | l2
    · simp [pyStrLe, ← e2, l1]
    · simp [pyStrLe, pyCharsLt_trans a.data b.data c.data l1 l2]

/-- Unfolding of `fieldKeyLe` through `node_field_sort_key`. -/
lemma fieldKeyLe_def {α : Type} (a b : String × α) :
    fieldKeyLe a b =
      ((!(!(STMTLIST_FIELD_NAMES.contains a.1)) && !(STMTLIST_FIELD_NAMES.contains b.1)) ||
        (decide ((!(STMTLIST_FIELD_NAMES.contains a.1)) = !(STMTLIST_FIELD_NAMES.contains b.1)) &&
          pyStrLe a.1 b.1)) := rfl

lemma fieldKeyLe_total {α : Type} (a b : String × α) :
    fieldKeyLe a b = true ∨ fieldKeyLe b a = true := by
  rw [fieldKeyLe_def, fieldKeyLe_def]
  rcases pyStrLe_total a.1 b.1 with hs | hs <;>
    cases ha : STMTLIST_FIELD_NAMES.contains a.1 <;>
      cases hb : STMTLIST_FIELD_NAMES.contains b.1 <;>
        simp [hs]

lemma fieldKeyLe_trans {α : Type} (a b c : String × α)
    (h1 : fieldKeyLe a b = true) (h2 : fieldKeyLe b c = true) :
    fieldKeyLe a c = true := by
  rw [fieldKeyLe_def] at h1 h2 ⊢
  cases ha : STMTLIST_FIELD_NAMES.contains a.1 <;>
    cases hb : STMTLIST_FIELD_NAMES.contains b.1 <;>
      cases hc : STMTLIST_FIELD_NAMES.contains c.1 <;>
        simp_all <;>
          exact pyStrLe_trans _ _ _ h1 h2

lemma insertStable_mem {α : Type} (le : α → α → Bool) (x : α) :
    ∀ (l : List α) (z : α), z ∈ insertStable le x l → z = x ∨ z ∈ l := by
  intro l
  induction l with
  | nil =>
    intro z hz
    simp [insertStable] at hz
    exact Or.inl hz
  | cons y ys ih =>
    intro z hz
    by_cases h : (le y x && !(le x y)) = true
    · rw [insertStable, if_pos h] at hz
      rcases List.mem_cons.1 hz with h1 | h2
      · exact Or.inr (by simp [h1])
      · rcases ih z h2 with h3 | h4
        · exact Or.inl h3
        · exact Or.inr (List.mem_cons_of_mem _ h4)
    · rw [insertStable, if_neg h] at hz
      rcases List.mem_cons.1 hz with h1 | h2
      · exact Or.inl h1
      · exact Or.inr h2

lemma insertStable_pairwise {α : Type} (le : α → α → Bool)
    (htot : ∀ a b, le a b = true ∨ le b a = true)
    (htrans : ∀ a b c, le a b = true → le b c = true → le a c = true)
    (x : α) :
    ∀ l : List α, l.Pairwise (fun a b => le a b = true) →
      (insertStable le x l).Pairwise (fun a b => le a b = true) := by
  intro l
  induction l with
  | nil =>
    intro _
    simp [insertStable]
  | cons y ys ih =>
    intro hl
    rcases List.pairwise_cons.1 hl with ⟨hy, hys⟩
    by_cases h : (le y x && !(le x y)) = true
    · rw [insertStable, if_pos h]
      refine List.pairwise_cons.2 ⟨?_, ih hys⟩
      intro z hz
      rcases insertStable_mem le x ys z hz with rfl | hzys
      · exact ((Bool.and_eq_true _ _).mp h).1
      · exact hy z hzys
    · rw [insertStable, if_neg h]
      have hxy : le x y = true := by
        by_cases hxy : le x y = true
        · exact hxy
        · rcases htot x y with h1 | h2
          · exact h1
          · exact absurd (by simp [h2, hxy]) h
      refine List.pairwise_cons.2 ⟨?_, hl⟩
      intro z hz
      rcases List.mem_cons.1 hz with rfl | hzys
      · exact hxy
      · exact htrans x y z hxy (hy z hzys)

lemma pySorted_pairwise {α : Type} (le : α → α → Bool)
    (htot : ∀ a b, le a b = true ∨ le b a = true)
    (htrans : ∀ a b c, le a b = true → le b c = true → le a c = true) :
    ∀ l : List α, (pySorted le l).Pairwise (fun a b => le a b = true) := by
  intro l
  induction l with
  | nil => simp [pySorted]
  | cons x xs ih =>
    rw [pySorted]
    exact insertStable_pairwise le htot htrans x _ ih

/-! ## Claim theorems: field ordering (C3) -/

/-- **C3, counterexample.**  The claim says fields whose names are *not*
in the statement-list set come first.  On the field list of a node with
fields `args` and `body` (in `node_field_sort_key` order), the sorted
result puts `body` — a statement-list name — *first*, so a
statement-list field precedes a non-statement field. -/
theorem c3_counterexample_sort_order :
    sortFields [("args", 0), ("body", 0)] = [("body", 0), ("args", 0)] ∧
    STMTLIST_FIELD_NAMES.contains "body" = true ∧
    STMTLIST_FIELD_NAMES.contains "args" = false := by
  decide

/-- **C3, amended.**  For every field list, the `node_field_sort_key`
order is deterministic and puts statement-list fields (names in
`STMTLIST_FIELD_NAMES`) *before* the other fields — not after, as the
claim says — and within each of the two groups the fields are ordered by
name. -/
theorem c3_field_sort_order {α : Type} (fields : List (String × α)) :
    (sortFields fields).Pairwise (fun a b =>
      (STMTLIST_FIELD_NAMES.contains b.1 = true → STMTLIST_FIELD_NAMES.contains a.1 = true) ∧
      (STMTLIST_FIELD_NAMES.contains a.1 = STMTLIST_FIELD_NAMES.contains b.1 →
        pyStrLe a.1 b.1 = true)) := by
  have hp := pySorted_pairwise (α := String × α) fieldKeyLe fieldKeyLe_total
    fieldKeyLe_trans fields
  refine List.Pairwise.imp ?_ hp
  intro a b hab
  rw [fieldKeyLe_def] at hab
  cases ha : STMTLIST_FIELD_NAMES.contains a.1 <;>
    cases hb : STMTLIST_FIELD_NAMES.contains b.1 <;>
      simp_all

/-! ## Claim theorem: version windows (C4) -/

/-- **C4.**  `FixerBase.is_required_for` compares the dotted version
*strings* with Python string ordering, not numerically: for the
`UnpackingGeneralizationsFixer` window `apply_since="2.0"`,
`apply_until="3.4"`, the check accepts target version `"3.10"` (because
`"3.10" <= "3.4"` lexicographically), although `3.10 > 3.4` in the
standard numeric `<major>.<minor>` ordering the claim requires. -/
theorem c4_is_required_for_string_not_numeric :
    is_required_for upgVersionInfo "3.10" = true ∧
    numericVersionLe (versionComponents "3.10") (versionComponents "3.4") = false := by
  decide

/-! ## Claim theorem: future-import fixers (C10) -/

/-- **C10.**  A future-import fixer returns the tree unchanged; its only
effect is to add the single pair `("__future__", future_name)` to the
instance's `required_imports` set, and adding the pair twice leaves the
set with one copy. -/
theorem c10_future_import_fixer (future_name : String)
    (required_imports : Finset (String × String)) (tree : Module) :
    future_import_fixer_call future_name required_imports tree =
      (insert ("__future__", future_name) required_imports, tree) ∧
    ("__future__", future_name) ∈
      (future_import_fixer_call future_name required_imports tree).1 ∧
    future_import_fixer_call future_name
        (future_import_fixer_call future_name required_imports tree).1 tree =
      future_import_fixer_call future_name required_imports tree := by
  refine ⟨rfl, Finset.mem_insert_self _ _, ?_⟩
  simp [future_import_fixer_call]

/-! ## Claim theorem: keyword-only arguments (C9) -/

lemma reverse_zip_reverse {α β : Type} :
    ∀ (A : List α) (B : List β), A.length = B.length →
      A.reverse.zip B.reverse = (A.zip B).reverse := by
  intro A
  induction A with
  | nil =>
    intro B h
    cases B with
    | nil => rfl
    | cons b B' => simp at h
  | cons a A' ih =>
    intro B h
    cases B with
    | nil => simp at h
    | cons b B' =>
      have hlen : A'.length = B'.length := by simpa using h
      simp only [List.reverse_cons]
      rw [List.zip_append (by simp [hlen]), ih B' hlen]
      simp

lemma inline_kwonly_loop_ok (kw_name : String) :
    ∀ (pairs : List (String × Option Expr)) (body : List Stmt),
      (∀ p ∈ pairs, ∀ e, p.2 = some e → isImmutableLiteral e = true) →
      inline_kwonly_loop kw_name pairs body =
        .ok (pairs.reverse.map (fun p => kwOnlyAssign kw_name p.1 p.2) ++ body) := by
  intro pairs
  induction pairs with
  | nil =>
    intro body _
    simp [inline_kwonly_loop]
  | cons p rest ih =>
    intro body h
    obtain ⟨arg_name, default⟩ := p
    cases default with
    | none =>
      rw [inline_kwonly_loop]
      rw [ih _ (fun q hq => h q (List.mem_cons_of_mem _ hq))]
      simp
    | some dflt =>
      have hd : isImmutableLiteral dflt = true :=
        h (arg_name, some dflt) (List.mem_cons_self _ _) dflt rfl
      rw [inline_kwonly_loop]
      rw [if_pos hd]
      rw [ih _ (fun q hq => h q (List.mem_cons_of_mem _ hq))]
      simp

lemma inline_kwonly_loop_err (kw_name : String) :
    ∀ (pairs : List (String × Option Expr)) (body : List Stmt),
      (∃ p ∈ pairs, ∃ e, p.2 = some e ∧ isImmutableLiteral e = false) →
      ∃ msg, inline_kwonly_loop kw_name pairs body = .error msg := by
  intro pairs
  induction pairs with
  | nil =>
    intro body h
    obtain ⟨p, hp, _⟩ := h
    cases hp
  | cons p rest ih =>
    intro body h
    obtain ⟨arg_name, default⟩ := p
    cases default with
    | none =>
      rw [inline_kwonly_loop]
      apply ih
      obtain ⟨q, hq, e, he, hlit⟩ := h
      rcases List.mem_cons.1 hq with rfl | hqrest
      · cases he
      · exact ⟨q, hqrest, e, he, hlit⟩
    | some dflt =>
      by_cases hd : isImmutableLiteral dflt = true
      · rw [inline_kwonly_loop, if_pos hd]
        apply ih
        obtain ⟨q, hq, e, he, hlit⟩ := h
        rcases List.mem_cons.1 hq with rfl | hqrest
        · obtain rfl : dflt = e := by simpa using he
          rw [hd] at hlit
          cases hlit
        · exact ⟨q, hqrest, e, he, hlit⟩
      · rw [inline_kwonly_loop, if_neg hd]
        exact ⟨_, rfl⟩

/-- **C9.**  For a function definition with keyword-only parameters:
when every present default is a literal, `visit_FunctionDef` replaces a
parameter without a default by a `kwargs["name"]` subscript assignment
and a parameter with a literal default by a `kwargs.get("name", default)`
assignment, inserts the assignments at the front of the body with the
first-declared parameter assigned first, and empties the keyword-only
parameter list; a keyword-only parameter whose default is not a literal
is rejected with an error (before any code is emitted for it — the
`Except` result carries no partial output). -/
theorem c9_inline_kwonly_args (node : KwFunctionDef)
    (hne : node.kwonlyargs ≠ [])
    (hlen : node.kwonlyargs.length = node.kw_defaults.length) :
    ((∀ p ∈ node.kwonlyargs.zip node.kw_defaults, ∀ e, p.2 = some e →
        isImmutableLiteral e = true) →
      visit_FunctionDef_kwonly node =
        .ok { name := node.name,
              kwonlyargs := [],
              kw_defaults := node.kw_defaults,
              kwarg := some (node.kwarg.getD "kwargs"),
              body := (node.kwonlyargs.zip node.kw_defaults).map
                  (fun p => kwOnlyAssign (node.kwarg.getD "kwargs") p.1 p.2) ++ node.body }) ∧
    ((∃ p ∈ node.kwonlyargs.zip node.kw_defaults, ∃ e, p.2 = some e ∧
        isImmutableLiteral e = false) →
      ∃ msg, visit_FunctionDef_kwonly node = .error msg) := by
  have hempty : node.kwonlyargs.isEmpty = false := by
    cases hh : node.kwonlyargs with
    | nil => exact absurd hh hne
    | cons x xs => rfl
  have hz : node.kwonlyargs.reverse.zip node.kw_defaults.reverse
      = (node.kwonlyargs.zip node.kw_defaults).reverse :=
    reverse_zip_reverse _ _ hlen
  constructor
  · intro hlit
    have hlit' : ∀ p ∈ node.kwonlyargs.reverse.zip node.kw_defaults.reverse,
        ∀ e, p.2 = some e → isImmutableLiteral e = true := by
      intro p hp
      rw [hz] at hp
      exact hlit p (List.mem_reverse.mp hp)
    rw [visit_FunctionDef_kwonly, if_neg (by simp [hempty])]
    cases hk : node.kwarg with
    | none =>
      simp only
      rw [inline_kwonly_loop_ok _ _ _ hlit']
      rw [hz]
      simp [hk]
    | some n =>
      simp only
      rw [inline_kwonly_loop_ok _ _ _ hlit']
      rw [hz]
      simp [hk]
  · intro hbad
    have hbad' : ∃ p ∈ node.kwonlyargs.reverse.zip node.kw_defaults.reverse,
        ∃ e, p.2 = some e ∧ isImmutableLiteral e = false := by
      obtain ⟨p, hp, e, he, hl⟩ := hbad
      exact ⟨p, by rw [hz]; exact List.mem_reverse.mpr hp, e, he, hl⟩
    rw [visit_FunctionDef_kwonly, if_neg (by simp [hempty])]
    cases hk : node.kwarg with
    | none =>
      obtain ⟨msg, hmsg⟩ := inline_kwonly_loop_err "kwargs" _ node.body hbad'
      refine ⟨msg, ?_⟩
      simp only [hmsg]
    | some n =>
      obtain ⟨msg, hmsg⟩ := inline_kwonly_loop_err n _ node.body hbad'
      refine ⟨msg, ?_⟩
      simp only [hmsg]

/-- The function shape of the spec's end-to-end example
`def f(*, x, y=2): ...`. -/
def exKwNode : KwFunctionDef :=
  { name := "f",
    kwonlyargs := ["x", "y"],
    kw_defaults := [none, some (.Num 2)],
    kwarg := none,
    body := [.ExprStmt (.NameConstant none)] }

/-- Witness for C9 at the spec's example `def f(*, x, y=2)`. -/
theorem c9_inline_kwonly_args_witness :
    (exKwNode.kwonlyargs ≠ [] ∧
      exKwNode.kwonlyargs.length = exKwNode.kw_defaults.length) ∧
    ((∀ p ∈ exKwNode.kwonlyargs.zip exKwNode.kw_defaults, ∀ e, p.2 = some e →
        isImmutableLiteral e = true) →
      visit_FunctionDef_kwonly exKwNode =
        .ok { name := exKwNode.name,
              kwonlyargs := [],
              kw_defaults := exKwNode.kw_defaults,
              kwarg := some (exKwNode.kwarg.getD "kwargs"),
              body := (exKwNode.kwonlyargs.zip exKwNode.kw_defaults).map
                  (fun p => kwOnlyAssign (exKwNode.kwarg.getD "kwargs") p.1 p.2) ++
                exKwNode.body }) ∧
    ((∃ p ∈ exKwNode.kwonlyargs.zip exKwNode.kw_defaults, ∃ e, p.2 = some e ∧
        isImmutableLiteral e = false) →
      ∃ msg, visit_FunctionDef_kwonly exKwNode = .error msg) :=
  ⟨⟨by simp [exKwNode], by simp [exKwNode]⟩,
   c9_inline_kwonly_args exKwNode (by simp [exKwNode]) (by simp [exKwNode])⟩

/-! ## Claim theorem: positional expansion shape (C2) -/

/-- The element list `expand_args_unpacking` reads (`args` of a call,
`elts` of a list/tuple/set literal). -/
def argUnpackElts : Expr → List Expr
  | .Call _ args _ => args
  | .ListE elts _ => elts
  | .TupleE elts _ => elts
  | .SetE elts => elts
  | _ => []

/-- The function of the replacement call `expand_args_unpacking` builds
(`val_node.func` for a call; the constructor name for a literal). -/
def argReplacementFunc : Expr → Expr
  | .Call f _ _ => f
  | .ListE _ _ => .Name "list" .Load
  | .TupleE _ _ => .Name "tuple" .Load
  | .SetE _ => .Name "set" .Load
  | e => e

/-- The keyword list of the replacement call (`val_node.keywords` for a
call, empty for a literal). -/
def argReplacementKeywords : Expr → List (Option String × Expr)
  | .Call _ _ kws => kws
  | _ => []

/-- **C2.**  For every call or literal with positional unpacking,
`expand_args_unpacking` emits exactly: the initializer binding the fresh
temporary `upg_args_k` to an empty list, then one statement per original
element in original order — `upg_args_k.extend(x)` for a spread element
`*x` and `upg_args_k.append(e)` for a plain element `e` — and replaces
the node by a call carrying exactly one spread, of the temporary
(deleting the temporary afterwards); the counter is advanced. -/
theorem c2_expand_args_unpacking (v : Expr) (k : Nat)
    (hnode : isArgUnpackNode v = true) (hunp : has_args_unpacking v = true) :
    expand_args_unpacking v k =
      .ok ((.Assign [.Name (upgArgsName k) .Store] (.ListE [] .Load) ::
              (argUnpackElts v).map (argElemStmt (upgArgsName k)),
            .Call (argReplacementFunc v) [.Starred (.Name (upgArgsName k) .Load) .Load]
              (argReplacementKeywords v),
            [.Delete [.Name (upgArgsName k) .Del]]), k + 1) ∧
    (∀ e c, argElemStmt (upgArgsName k) (.Starred e c) =
      .ExprStmt (.Call (.Attribute (.Name (upgArgsName k) .Load) "extend" .Load) [e] [])) ∧
    (∀ e, isStarredNode e = false →
      argElemStmt (upgArgsName k) e =
        .ExprStmt (.Call (.Attribute (.Name (upgArgsName k) .Load) "append" .Load) [e] [])) := by
  refine ⟨?_, ?_, ?_⟩
  · cases v with
    | Call f args kws => rfl
    | ListE elts c => rfl
    | TupleE elts c => rfl
    | SetE elts => rfl
    | Name i c => cases hnode
    | Num n => cases hnode
    | Str s => cases hnode
    | NameConstant b => cases hnode
    | Starred e c => cases hnode
    | DictE ks vs => cases hnode
    | Attribute e a c => cases hnode
    | Subscript e s c => cases hnode
    | IndexE e => cases hnode
    | Lambda ps b => cases hnode
  · intro e c
    rfl
  · intro e he
    cases e with
    | Starred v c => cases he
    | Name i c => rfl
    | Num n => rfl
    | Str s => rfl
    | NameConstant b => rfl
    | Call f args kws => rfl
    | ListE elts c => rfl
    | TupleE elts c => rfl
    | SetE elts => rfl
    | DictE ks vs => rfl
    | Attribute v a c => rfl
    | Subscript v s c => rfl
    | IndexE v => rfl
    | Lambda ps b => rfl

/-- The call `f(*a, 1, *b)` of the spec's evaluation-order example. -/
def exCall : Expr :=
  .Call (.Name "f" .Load)
    [.Starred (.Name "a" .Load) .Load, .Num 1, .Starred (.Name "b" .Load) .Load] []

/-- Witness for C2 at `f(*a, 1, *b)`: the hoisted sequence is
extend(a), append(1), extend(b), in that order. -/
theorem c2_expand_args_unpacking_witness :
    (isArgUnpackNode exCall = true ∧ has_args_unpacking exCall = true) ∧
    (expand_args_unpacking exCall 0 =
      .ok ((.Assign [.Name (upgArgsName 0) .Store] (.ListE [] .Load) ::
              (argUnpackElts exCall).map (argElemStmt (upgArgsName 0)),
            .Call (argReplacementFunc exCall)
              [.Starred (.Name (upgArgsName 0) .Load) .Load]
              (argReplacementKeywords exCall),
            [.Delete [.Name (upgArgsName 0) .Del]]), 0 + 1) ∧
      (∀ e c, argElemStmt (upgArgsName 0) (.Starred e c) =
        .ExprStmt (.Call (.Attribute (.Name (upgArgsName 0) .Load) "extend" .Load) [e] [])) ∧
      (∀ e, isStarredNode e = false →
        argElemStmt (upgArgsName 0) e =
          .ExprStmt (.Call (.Attribute (.Name (upgArgsName 0) .Load) "append" .Load) [e] []))) :=
  ⟨⟨rfl, rfl⟩, c2_expand_args_unpacking exCall 0 rfl rfl⟩

/-! ## Claim theorem: lambda hoisting (C7) -/

/-- **C7.**  When the body of a lambda requires hoisted statements, the
fixer replaces the lambda by a reference to a named function: the hoisted
prefix becomes a `FunctionDef` with the lambda's parameter list whose
body is exactly the hoisted statements followed by a `return` of the
rewritten body expression, the lambda's position now holds a `Name`
reference to that function, and the deletion of the function name is the
accompanying del node; prefix and del nodes are spliced into the
enclosing statement block by `apply_body_updates`. -/
theorem c7_lambda_hoist (params : List String) (b : Expr) (k k' : Nat)
    (p : List Stmt) (b' : Expr) (d : List Stmt)
    (h : make_single_field_update b k = .ok (some (p, b', d), k')) :
    make_single_field_update (.Lambda params b) k =
      .ok (some ([.FunctionDef "temp_lambda_as_def" params (p ++ [.Return (some b')]) []],
                 .Name "temp_lambda_as_def" .Load,
                 [.Delete [.Name "temp_lambda_as_def" .Del]]), k') := by
  rw [make_single_field_update]
  simp only [isArgUnpackNode, isKwArgUnpackNode, Bool.or_self]
  rw [if_neg (by simp)]
  simp only [sub_fields_update]
  rw [h]
  rfl

/-- The hoisted prefix for `f(*a, 1, *b)` with counter `0`. -/
def exPrefix : List Stmt :=
  [.Assign [.Name (upgArgsName 0) .Store] (.ListE [] .Load),
   .ExprStmt (.Call (.Attribute (.Name (upgArgsName 0) .Load) "extend" .Load)
     [.Name "a" .Load] []),
   .ExprStmt (.Call (.Attribute (.Name (upgArgsName 0) .Load) "append" .Load)
     [.Num 1] []),
   .ExprStmt (.Call (.Attribute (.Name (upgArgsName 0) .Load) "extend" .Load)
     [.Name "b" .Load] [])]

/-- The replacement call for `f(*a, 1, *b)` with counter `0`:
`f(*upg_args_0)`. -/
def exCallNew : Expr :=
  .Call (.Name "f" .Load) [.Starred (.Name (upgArgsName 0) .Load) .Load] []

/-- Concrete evaluation: `make_single_field_update` on `f(*a, 1, *b)`
with counter `0`. -/
lemma msfu_exCall :
    make_single_field_update exCall 0 =
      .ok (some (exPrefix, exCallNew, [.Delete [.Name (upgArgsName 0) .Del]]), 1) := by
  simp [make_single_field_update, make_val_node_update, exCall, isArgUnpackNode,
    isKwArgUnpackNode, has_args_unpacking, scanStarred, isStarredNode,
    expandArgsChecked, expand_args_unpacking, has_kwargs_unpacking,
    scanKwStarred, argElemStmt, exPrefix, exCallNew]

/-! ## Cleanliness: no remaining unpacking anywhere in a tree

`cleanExpr e` says `has_args_unpacking` and `has_kwargs_unpacking`
are `false` at `e` and at every node below it; `cleanStmt`/`cleanStmts`
extend this through statements and nested blocks. -/

mutual

/-- No unpacking at this node or anywhere below it. -/
def cleanExpr (e : Expr) : Bool :=
  (!(has_args_unpacking e) && !(has_kwargs_unpacking e)) && cleanChildren e
termination_by (sizeOf e, 1)

/-- No unpacking anywhere strictly below this node. -/
def cleanChildren : Expr → Bool
  | .Name _ _ => true
  | .Num _ => true
  | .Str _ => true
  | .NameConstant _ => true
  | .Starred v _ => cleanExpr v
  | .Call f args kws => cleanExpr f && cleanExprs args && cleanKws kws
  | .ListE elts _ => cleanExprs elts
  | .TupleE elts _ => cleanExprs elts
  | .SetE elts => cleanExprs elts
  | .DictE keys values => cleanOptExprs keys && cleanExprs values
  | .Attribute v _ _ => cleanExpr v
  | .Subscript v s _ => cleanExpr v && cleanExpr s
  | .IndexE v => cleanExpr v
  | .Lambda _ b => cleanExpr b
termination_by e => (sizeOf e, 0)

/-- All expressions in the list are clean. -/
def cleanExprs : List Expr → Bool
  | [] => true
  | e :: rest => cleanExpr e && cleanExprs rest
termination_by l => (sizeOf l, 0)

/-- All present keys are clean. -/
def cleanOptExprs : List (Option Expr) → Bool
  | [] => true
  | none :: _ => false
  | some e :: rest => cleanExpr e && cleanOptExprs rest
termination_by l => (sizeOf l, 0)

/-- All keyword values are clean. -/
def cleanKws : List (Option String × Expr) → Bool
  | [] => true
  | (_, v) :: rest => cleanExpr v && cleanKws rest
termination_by l => (sizeOf l, 0)

end

mutual

/-- No unpacking anywhere in the statement, nested blocks included. -/
def cleanStmt : Stmt → Bool
  | .Assign targets value => cleanExprs targets && cleanExpr value
  | .ExprStmt value => cleanExpr value
  | .Return none => true
  | .Return (some v) => cleanExpr v
  | .Delete targets => cleanExprs targets
  | .FunctionDef _ _ fbody decs => cleanStmts fbody && cleanExprs decs
  | .IfStmt t b o => cleanExpr t && cleanStmts b && cleanStmts o
termination_by s => (sizeOf s, 0)

/-- All statements in the block are clean. -/
def cleanStmts : List Stmt → Bool
  | [] => true
  | s :: rest => cleanStmt s && cleanStmts rest
termination_by l => (sizeOf l, 0)

end

/-! ## Non-emptiness of emitted updates

An update (`Some` result) always carries a non-empty hoisted prefix and a
non-empty del list: the `len(...) > 0` checks gate every `Some`. -/

lemma finishFields_some {P D : List Stmt} {n : Expr} {k k' : Nat}
    {r : List Stmt × Expr × List Stmt}
    (h : finishFields P n D k = .ok (some r, k')) :
    r = (P, n, D) ∧ k' = k ∧ P ≠ [] ∧ D ≠ [] := by
  unfold finishFields at h
  split at h
  · split at h
    · refine ⟨?_, ?_, ?_, ?_⟩
      · cases h; rfl
      · cases h; rfl
      · rename_i hP _
        exact List.ne_nil_of_length_pos hP
      · rename_i _ hD
        exact List.ne_nil_of_length_pos hD
    · cases h
  · cases h

lemma finishFields_none {P D : List Stmt} {n : Expr} {k k' : Nat}
    (h : finishFields P n D k = .ok (none, k')) :
    P = [] ∧ k' = k := by
  unfold finishFields at h
  split at h
  · split at h
    · cases h
    · cases h
  · rename_i hP
    refine ⟨?_, by cases h; rfl⟩
    simpa using hP

lemma make_val_node_update_some {v : Expr} {k k' : Nat}
    {r : List Stmt × Expr × List Stmt}
    (h : make_val_node_update v k = .ok (some r, k')) :
    r.1 ≠ [] ∧ r.2.2 ≠ [] := by
  unfold make_val_node_update at h
  split at h
  · cases h
  · split at h
    · cases h
    · dsimp only at h
      split at h
      · split at h
        · rename_i hP hD
          cases h
          exact ⟨List.ne_nil_of_length_pos hP, List.ne_nil_of_length_pos hD⟩
        · cases h
      · cases h

lemma sub_fields_update_some {e : Expr} {k k' : Nat}
    {r : List Stmt × Expr × List Stmt}
    (h : sub_fields_update e k = .ok (some r, k')) :
    r.1 ≠ [] ∧ r.2.2 ≠ [] := by
  rw [sub_fields_update.eq_def] at h
  split at h <;> try (cases h)
  all_goals try split at h
  all_goals try (cases h)
  all_goals try split at h
  all_goals try (cases h)
  all_goals try split at h
  all_goals try (cases h)
  all_goals try (exact ⟨List.cons_ne_nil _ _, List.cons_ne_nil _ _⟩)
  all_goals
    (obtain ⟨hr, _, hP, hD⟩ := finishFields_some h
     rw [hr]
     exact ⟨hP, hD⟩)

lemma make_single_field_update_some {e : Expr} {k k' : Nat}
    {r : List Stmt × Expr × List Stmt}
    (h : make_single_field_update e k = .ok (some r, k')) :
    r.1 ≠ [] ∧ r.2.2 ≠ [] := by
  rw [make_single_field_update] at h
  split at h
  · cases h
  · rename_i u k2 heq
    cases h
    split at heq
    · exact make_val_node_update_some heq
    · cases heq
  · exact sub_fields_update_some h

lemma make_list_field_update_some {l : List Expr} {k k' : Nat}
    {r : List Stmt × List Expr × List Stmt}
    (h : make_list_field_update l k = .ok (some r, k')) :
    r.1 ≠ [] ∧ r.2.2 ≠ [] ∧ r.2.1.length = l.length := by
  rw [make_list_field_update.eq_def] at h
  split at h
  · cases h
  · split at h
    · cases h
    · split at h
      · split at h
        · split at h
          · split at h
            · rename_i hP hD _ hLen
              cases h
              exact ⟨List.ne_nil_of_length_pos hP, List.ne_nil_of_length_pos hD, hLen⟩
            · cases h
          · cases h
        · cases h
      · cases h

lemma make_keywords_field_update_some {l : List (Option String × Expr)} {k k' : Nat}
    {r : List Stmt × List (Option String × Expr) × List Stmt}
    (h : make_keywords_field_update l k = .ok (some r, k')) :
    r.1 ≠ [] ∧ r.2.2 ≠ [] ∧ r.2.1.length = l.length := by
  rw [make_keywords_field_update.eq_def] at h
  split at h
  · cases h
  · split at h
    · cases h
    · split at h
      · split at h
        · split at h
          · split at h
            · rename_i hP hD _ hLen
              cases h
              exact ⟨List.ne_nil_of_length_pos hP, List.ne_nil_of_length_pos hD, hLen⟩
            · cases h
          · cases h
        · cases h
      · cases h

lemma make_opt_list_field_update_some {l : List (Option Expr)} {k k' : Nat}
    {r : List Stmt × List (Option Expr) × List Stmt}
    (h : make_opt_list_field_update l k = .ok (some r, k')) :
    r.1 ≠ [] ∧ r.2.2 ≠ [] ∧ r.2.1.length = l.length := by
  rw [make_opt_list_field_update.eq_def] at h
  split at h
  · cases h
  · split at h
    · cases h
    · split at h
      · split at h
        · split at h
          · split at h
            · rename_i hP hD _ hLen
              cases h
              exact ⟨List.ne_nil_of_length_pos hP, List.ne_nil_of_length_pos hD, hLen⟩
            · cases h
          · cases h
        · cases h
      · cases h

/-! ## Clean nodes are untouched (`None` updates) -/

/-- On a node without unpacking, `make_val_node_update` does nothing. -/
lemma mvnu_clean (v : Expr) (k : Nat)
    (hargs : has_args_unpacking v = false) (hkw : has_kwargs_unpacking v = false) :
    make_val_node_update v k = .ok (none, k) := by
  unfold make_val_node_update
  rw [if_neg (by simp [hargs])]
  dsimp only
  rw [if_neg (by simp [hkw])]
  rfl

/-- On a node without unpacking, `make_single_field_update` is the
generic sub-field loop. -/
lemma msfu_eq_sub_fields (e : Expr) (k : Nat)
    (hargs : has_args_unpacking e = false) (hkw : has_kwargs_unpacking e = false) :
    make_single_field_update e k = sub_fields_update e k := by
  rw [make_single_field_update]
  by_cases hu : (isArgUnpackNode e || isKwArgUnpackNode e) = true
  · rw [if_pos hu, mvnu_clean e k hargs hkw]
  · rw [if_neg hu]

/-- `cleanExpr` unfolded. -/
lemma cleanExpr_eq (e : Expr) :
    cleanExpr e =
      ((!(has_args_unpacking e) && !(has_kwargs_unpacking e)) && cleanChildren e) := by
  rw [cleanExpr]

lemma cleanExpr_has_args {e : Expr} (h : cleanExpr e = true) :
    has_args_unpacking e = false := by
  rw [cleanExpr_eq] at h
  simp only [Bool.and_eq_true, Bool.not_eq_true'] at h
  exact h.1.1

lemma cleanExpr_has_kwargs {e : Expr} (h : cleanExpr e = true) :
    has_kwargs_unpacking e = false := by
  rw [cleanExpr_eq] at h
  simp only [Bool.and_eq_true, Bool.not_eq_true'] at h
  exact h.1.2

lemma cleanExpr_children {e : Expr} (h : cleanExpr e = true) :
    cleanChildren e = true := by
  rw [cleanExpr_eq] at h
  simp only [Bool.and_eq_true, Bool.not_eq_true'] at h
  exact h.2

/-- Clean trees are left untouched by the field-update functions, at any
counter value: the structural expansion fixer does nothing below a node
with no unpacking anywhere. -/
lemma clean_no_update :
    ∀ n : Nat,
      (∀ e : Expr, sizeOf e ≤ n → cleanExpr e = true → ∀ k,
        make_single_field_update e k = .ok (none, k)) ∧
      (∀ l : List Expr, sizeOf l ≤ n → cleanExprs l = true → ∀ k,
        make_list_field_update l k = .ok (none, k) ∧
          list_update_loop l k = .ok (([], l, []), k)) ∧
      (∀ l : List (Option String × Expr), sizeOf l ≤ n → cleanKws l = true → ∀ k,
        make_keywords_field_update l k = .ok (none, k) ∧
          keywords_update_loop l k = .ok (([], l, []), k)) ∧
      (∀ l : List (Option Expr), sizeOf l ≤ n → cleanOptExprs l = true → ∀ k,
        make_opt_list_field_update l k = .ok (none, k) ∧
          opt_list_update_loop l k = .ok (([], l, []), k)) := by
  intro n
  induction n using Nat.strong_induction_on with
  | _ n ih =>
    have ihE : ∀ e : Expr, sizeOf e < n → cleanExpr e = true → ∀ k,
        make_single_field_update e k = .ok (none, k) := by
      intro e he
      exact (ih (sizeOf e) he).1 e le_rfl
    have ihL : ∀ l : List Expr, sizeOf l < n → cleanExprs l = true → ∀ k,
        make_list_field_update l k = .ok (none, k) ∧
          list_update_loop l k = .ok (([], l, []), k) := by
      intro l hl
      exact (ih (sizeOf l) hl).2.1 l le_rfl
    have ihK : ∀ l : List (Option String × Expr), sizeOf l < n → cleanKws l = true → ∀ k,
        make_keywords_field_update l k = .ok (none, k) ∧
          keywords_update_loop l k = .ok (([], l, []), k) := by
      intro l hl
      exact (ih (sizeOf l) hl).2.2.1 l le_rfl
    have ihO : ∀ l : List (Option Expr), sizeOf l < n → cleanOptExprs l = true → ∀ k,
        make_opt_list_field_update l k = .ok (none, k) ∧
          opt_list_update_loop l k = .ok (([], l, []), k) := by
      intro l hl
      exact (ih (sizeOf l) hl).2.2.2 l le_rfl
    refine ⟨?_, ?_, ?_, ?_⟩
    · -- expressions
      intro e hsize hclean k
      rw [msfu_eq_sub_fields e k (cleanExpr_has_args hclean) (cleanExpr_has_kwargs hclean)]
      have hch := cleanExpr_children hclean
      cases e with
      | Name i c => rw [sub_fields_update]
      | Num m => rw [sub_fields_update]
      | Str s => rw [sub_fields_update]
      | NameConstant b => rw [sub_fields_update]
      | Starred v c =>
        have hv : cleanExpr v = true := by simpa [cleanChildren] using hch
        have hsv : sizeOf v < n := by
          have : sizeOf v < sizeOf (Expr.Starred v c) := by simp; omega
          omega
        simp only [sub_fields_update]
        rw [ihE v hsv hv k]
        try rfl
      | Call f args kws =>
        have hc' := hch
        simp only [cleanChildren, Bool.and_eq_true] at hc'
        obtain ⟨⟨hcf, hca⟩, hck⟩ := hc'
        have hsz : sizeOf f < n ∧ sizeOf args < n ∧ sizeOf kws < n := by
          have : sizeOf f < sizeOf (Expr.Call f args kws) ∧
              sizeOf args < sizeOf (Expr.Call f args kws) ∧
              sizeOf kws < sizeOf (Expr.Call f args kws) := by simp; omega
          omega
        simp only [sub_fields_update, (ihL args hsz.2.1 hca k).1, ihE f hsz.1 hcf k,
          (ihK kws hsz.2.2 hck k).1]
        try rfl
      | ListE elts c =>
        have he : cleanExprs elts = true := by simpa [cleanChildren] using hch
        have hse : sizeOf elts < n := by
          have : sizeOf elts < sizeOf (Expr.ListE elts c) := by simp; omega
          omega
        simp only [sub_fields_update]
        rw [(ihL elts hse he k).1]
        try rfl
      | TupleE elts c =>
        have he : cleanExprs elts = true := by simpa [cleanChildren] using hch
        have hse : sizeOf elts < n := by
          have : sizeOf elts < sizeOf (Expr.TupleE elts c) := by simp; omega
          omega
        simp only [sub_fields_update]
        rw [(ihL elts hse he k).1]
        try rfl
      | SetE elts =>
        have he : cleanExprs elts = true := by simpa [cleanChildren] using hch
        have hse : sizeOf elts < n := by
          have : sizeOf elts < sizeOf (Expr.SetE elts) := by simp; try omega
          omega
        simp only [sub_fields_update]
        rw [(ihL elts hse he k).1]
        try rfl
      | DictE keys values =>
        have hc : cleanOptExprs keys = true ∧ cleanExprs values = true := by
          simpa [cleanChildren, Bool.and_eq_true] using hch
        have hsz : sizeOf keys < n ∧ sizeOf values < n := by
          have : sizeOf keys < sizeOf (Expr.DictE keys values) ∧
              sizeOf values < sizeOf (Expr.DictE keys values) := by simp; omega
          omega
        simp only [sub_fields_update, (ihO keys hsz.1 hc.1 k).1,
          (ihL values hsz.2 hc.2 k).1]
        try rfl
      | Attribute v a c =>
        have hv : cleanExpr v = true := by simpa [cleanChildren] using hch
        have hsv : sizeOf v < n := by
          have : sizeOf v < sizeOf (Expr.Attribute v a c) := by simp; omega
          omega
        simp only [sub_fields_update]
        rw [ihE v hsv hv k]
        try rfl
      | Subscript v s c =>
        have hc : cleanExpr v = true ∧ cleanExpr s = true := by
          simpa [cleanChildren, Bool.and_eq_true] using hch
        have hsz : sizeOf v < n ∧ sizeOf s < n := by
          have : sizeOf v < sizeOf (Expr.Subscript v s c) ∧
              sizeOf s < sizeOf (Expr.Subscript v s c) := by simp; omega
          omega
        simp only [sub_fields_update, ihE s hsz.2 hc.2 k, ihE v hsz.1 hc.1 k]
        try rfl
      | IndexE v =>
        have hv : cleanExpr v = true := by simpa [cleanChildren] using hch
        have hsv : sizeOf v < n := by
          have : sizeOf v < sizeOf (Expr.IndexE v) := by simp; try omega
          omega
        simp only [sub_fields_update]
        rw [ihE v hsv hv k]
        try rfl
      | Lambda ps b =>
        have hb : cleanExpr b = true := by simpa [cleanChildren] using hch
        have hsb : sizeOf b < n := by
          have : sizeOf b < sizeOf (Expr.Lambda ps b) := by simp; try omega
          omega
        simp only [sub_fields_update]
        rw [ihE b hsb hb k]
        try rfl
    · -- expression lists
      intro l hsize hclean k
      cases l with
      | nil =>
        constructor
        · rw [make_list_field_update]
        · rw [list_update_loop]
      | cons x rest =>
        have hc : cleanExpr x = true ∧ cleanExprs rest = true := by
          simpa [cleanExprs, Bool.and_eq_true] using hclean
        have hsz : sizeOf x < n ∧ sizeOf rest < n := by
          have : sizeOf x < sizeOf (x :: rest) ∧ sizeOf rest < sizeOf (x :: rest) := by
            simp; omega
          omega
        have hloop : list_update_loop (x :: rest) k = .ok (([], x :: rest, []), k) := by
          simp only [list_update_loop, ihE x hsz.1 hc.1 k,
            ((ih (sizeOf rest) hsz.2).2.1 rest le_rfl hc.2 k).2]
          try rfl
        constructor
        · rw [make_list_field_update]
          rw [hloop]
          try rfl
        · exact hloop
    · -- keyword lists
      intro l hsize hclean k
      cases l with
      | nil =>
        constructor
        · rw [make_keywords_field_update]
        · rw [keywords_update_loop]
      | cons x rest =>
        obtain ⟨a, v⟩ := x
        have hc : cleanExpr v = true ∧ cleanKws rest = true := by
          simpa [cleanKws, Bool.and_eq_true] using hclean
        have hsz : sizeOf v < n ∧ sizeOf rest < n := by
          have : sizeOf v < sizeOf ((a, v) :: rest) ∧
              sizeOf rest < sizeOf ((a, v) :: rest) := by simp; omega
          omega
        have hloop : keywords_update_loop ((a, v) :: rest) k = .ok (([], (a, v) :: rest, []), k) := by
          simp only [keywords_update_loop, ihE v hsz.1 hc.1 k, (ihK rest hsz.2 hc.2 k).2]
          try rfl
        constructor
        · rw [make_keywords_field_update]
          rw [hloop]
          try rfl
        · exact hloop
    · -- key lists
      intro l hsize hclean k
      cases l with
      | nil =>
        constructor
        · rw [make_opt_list_field_update]
        · rw [opt_list_update_loop]
      | cons x rest =>
        cases x with
        | none =>
          exact absurd hclean (by simp [cleanOptExprs])
        | some key =>
          have hc : cleanExpr key = true ∧ cleanOptExprs rest = true := by
            simpa [cleanOptExprs, Bool.and_eq_true] using hclean
          have hsz : sizeOf key < n ∧ sizeOf rest < n := by
            have : sizeOf key < sizeOf (some key :: rest) ∧
                sizeOf rest < sizeOf (some key :: rest) := by simp; omega
            omega
          have hloop : opt_list_update_loop (some key :: rest) k =
              .ok (([], some key :: rest, []), k) := by
            simp only [opt_list_update_loop, ihE key hsz.1 hc.1 k, (ihO rest hsz.2 hc.2 k).2]
            try rfl
          constructor
          · rw [make_opt_list_field_update]
            rw [hloop]
            try rfl
          · exact hloop

/-- Clean expressions yield no update, at any counter. -/
lemma cleanExpr_msfu {e : Expr} (h : cleanExpr e = true) (k : Nat) :
    make_single_field_update e k = .ok (none, k) :=
  (clean_no_update (sizeOf e)).1 e le_rfl h k

/-- Clean expression lists yield no update, at any counter. -/
lemma cleanExprs_mlfu {l : List Expr} (h : cleanExprs l = true) (k : Nat) :
    make_list_field_update l k = .ok (none, k) :=
  ((clean_no_update (sizeOf l)).2.1 l le_rfl h k).1

/-- Witness for C7 at `lambda z: f(*a, 1, *b)`. -/
theorem c7_lambda_hoist_witness :
    make_single_field_update exCall 0 =
      .ok (some (exPrefix, exCallNew, [.Delete [.Name (upgArgsName 0) .Del]]), 1) ∧
    make_single_field_update (.Lambda ["z"] exCall) 0 =
      .ok (some ([.FunctionDef "temp_lambda_as_def" ["z"]
                    (exPrefix ++ [.Return (some exCallNew)]) []],
                 .Name "temp_lambda_as_def" .Load,
                 [.Delete [.Name "temp_lambda_as_def" .Del]]), 1) :=
  ⟨msfu_exCall, c7_lambda_hoist ["z"] exCall 0 1 exPrefix exCallNew
    [.Delete [.Name (upgArgsName 0) .Del]] msfu_exCall⟩

/-! ## A-side: a `None` update result means the expression is clean

`make_val_node_update` fires an expansion exactly when the corresponding
unpacking check holds, and a fired expansion always contributes a
non-empty prefix; so a `None` result pins both checks to `false`.
Propagating this through the sub-field loop shows that a `None`
`make_single_field_update` result forces the whole subtree clean. -/

/-- A fired args expansion always returns a non-empty prefix (its head is
the temp initializer). -/
lemma expand_args_unpacking_nonempty {v v' : Expr} {p d : List Stmt} {k k' : Nat}
    (h : expand_args_unpacking v k = .ok ((p, v', d), k')) : p ≠ [] := by
  rw [expand_args_unpacking.eq_def] at h
  dsimp only at h
  split at h
  all_goals first
    | (simp only [Except.ok.injEq, Prod.mk.injEq] at h
       obtain ⟨⟨hp, -, -⟩, -⟩ := h
       simp [← hp])
    | exact absurd h (by simp)

/-- A fired kwargs expansion always returns a non-empty prefix. -/
lemma expand_kwargs_unpacking_nonempty {v v' : Expr} {p d : List Stmt} {k k' : Nat}
    (h : expand_kwargs_unpacking v k = .ok ((p, v', d), k')) : p ≠ [] := by
  rw [expand_kwargs_unpacking.eq_def] at h
  dsimp only at h
  split at h
  · simp only [Except.ok.injEq, Prod.mk.injEq] at h
    obtain ⟨⟨hp, -, -⟩, -⟩ := h
    simp [← hp]
  · split at h
    · exact absurd h (by simp)
    · simp only [Except.ok.injEq, Prod.mk.injEq] at h
      obtain ⟨⟨hp, -, -⟩, -⟩ := h
      simp [← hp]
  · exact absurd h (by simp)

/-- The checked args expansion returns a non-empty prefix. -/
lemma expandArgsChecked_nonempty {v v' : Expr} {p d : List Stmt} {k k' : Nat}
    (h : expandArgsChecked v k = .ok (p, v', d, k')) : p ≠ [] := by
  unfold expandArgsChecked at h
  split at h
  · exact absurd h (by simp)
  · rename_i p1 v1 d1 k1 heq
    split at h
    · exact absurd h (by simp)
    · simp only [Except.ok.injEq, Prod.mk.injEq] at h
      obtain ⟨hp, -⟩ := h
      exact hp ▸ expand_args_unpacking_nonempty heq

/-- The checked kwargs expansion returns a non-empty prefix. -/
lemma expandKwargsChecked_nonempty {v v' : Expr} {p d : List Stmt} {k k' : Nat}
    (h : expandKwargsChecked v k = .ok (p, v', d, k')) : p ≠ [] := by
  unfold expandKwargsChecked at h
  split at h
  · exact absurd h (by simp)
  · rename_i p1 v1 d1 k1 heq
    split at h
    · exact absurd h (by simp)
    · simp only [Except.ok.injEq, Prod.mk.injEq] at h
      obtain ⟨hp, -⟩ := h
      exact hp ▸ expand_kwargs_unpacking_nonempty heq

/-- A node kind outside `ArgUnpackNodes` never has args unpacking. -/
lemma has_args_of_not_argnode {e : Expr} (h : isArgUnpackNode e = false) :
    has_args_unpacking e = false := by
  cases e <;> simp_all [isArgUnpackNode, has_args_unpacking]

/-- A node kind outside `KwArgUnpackNodes` never has kwargs unpacking. -/
lemma has_kwargs_of_not_kwnode {e : Expr} (h : isKwArgUnpackNode e = false) :
    has_kwargs_unpacking e = false := by
  cases e <;> simp_all [isKwArgUnpackNode, has_kwargs_unpacking]

/-- A `None` result of `make_val_node_update` leaves the counter alone and
pins both expansion guards to `false`. -/
lemma mvnu_none {v : Expr} {k k' : Nat}
    (h : make_val_node_update v k = .ok (none, k')) :
    k' = k ∧ (isArgUnpackNode v && has_args_unpacking v) = false ∧
      (isKwArgUnpackNode v && has_kwargs_unpacking v) = false := by
  unfold make_val_node_update at h
  split at h
  · exact absurd h (by simp)
  · rename_i ps1 v1 ds1 k1 heq1
    split at h
    · exact absurd h (by simp)
    · rename_i ps2 v2 ds2 k2 heq2
      dsimp only at h
      by_cases hp : (ps1 ++ ps2).length > 0
      · rw [if_pos hp] at h
        split at h <;> exact absurd h (by simp)
      · rw [if_neg hp] at h
        simp only [Except.ok.injEq, Prod.mk.injEq] at h
        have hps1 : ps1 = [] := by
          cases ps1 <;> simp_all
        subst hps1
        have hps2 : ps2 = [] := by
          cases ps2 <;> simp_all
        subst hps2
        -- neither expansion fired: both `if` scrutinees took the else arm
        have hc1 : (isArgUnpackNode v && has_args_unpacking v) = false := by
          by_contra hcon
          rw [if_pos (by simpa using hcon)] at heq1
          exact absurd rfl (expandArgsChecked_nonempty heq1)
        rw [if_neg (by simp [hc1])] at heq1
        simp only [Except.ok.injEq, Prod.mk.injEq] at heq1
        obtain ⟨-, hv1, -, hk1⟩ := heq1
        have hc2 : (isKwArgUnpackNode v1 && has_kwargs_unpacking v1) = false := by
          by_contra hcon
          rw [if_pos (by simpa using hcon)] at heq2
          exact absurd rfl (expandKwargsChecked_nonempty heq2)
        rw [if_neg (by simp [hc2])] at heq2
        simp only [Except.ok.injEq, Prod.mk.injEq] at heq2
        obtain ⟨-, -, -, hk2⟩ := heq2
        obtain ⟨-, hk⟩ := h
        refine ⟨by omega, hc1, ?_⟩
        rw [hv1]
        exact hc2


/-- If the kind-guarded args check is false, so is `has_args_unpacking`. -/
lemma guard_args_false {e : Expr}
    (h : (isArgUnpackNode e && has_args_unpacking e) = false) :
    has_args_unpacking e = false := by
  cases ha : isArgUnpackNode e
  · exact has_args_of_not_argnode ha
  · simpa [ha] using h

/-- If the kind-guarded kwargs check is false, so is `has_kwargs_unpacking`. -/
lemma guard_kwargs_false {e : Expr}
    (h : (isKwArgUnpackNode e && has_kwargs_unpacking e) = false) :
    has_kwargs_unpacking e = false := by
  cases ha : isKwArgUnpackNode e
  · exact has_kwargs_of_not_kwnode ha
  · simpa [ha] using h

set_option maxHeartbeats 1600000 in
/-- A `None` `make_single_field_update` result leaves the counter alone
and certifies the whole subtree clean (stated simultaneously for the
element loops, by strong induction on size). -/
lemma msfu_none_clean :
    ∀ n : Nat,
      (∀ e : Expr, sizeOf e ≤ n → ∀ k k',
        make_single_field_update e k = .ok (none, k') →
        k' = k ∧ cleanExpr e = true) ∧
      (∀ l : List Expr, sizeOf l ≤ n → ∀ k k' P N D,
        list_update_loop l k = .ok ((P, N, D), k') → P = [] →
        k' = k ∧ N = l ∧ D = [] ∧ cleanExprs l = true) ∧
      (∀ l : List (Option String × Expr), sizeOf l ≤ n → ∀ k k' P N D,
        keywords_update_loop l k = .ok ((P, N, D), k') → P = [] →
        k' = k ∧ N = l ∧ D = [] ∧ cleanKws l = true) ∧
      (∀ l : List (Option Expr), sizeOf l ≤ n → ∀ k k' P N D,
        opt_list_update_loop l k = .ok ((P, N, D), k') → P = [] →
        k' = k ∧ N = l ∧ D = [] ∧ cleanOptExprs l = true) := by
  intro n
  induction n using Nat.strong_induction_on with
  | _ n ih =>
    have ihE : ∀ e : Expr, sizeOf e < n → ∀ k k',
        make_single_field_update e k = .ok (none, k') →
        k' = k ∧ cleanExpr e = true := by
      intro e he
      exact (ih (sizeOf e) he).1 e le_rfl
    have ihL : ∀ l : List Expr, sizeOf l < n → ∀ k k' P N D,
        list_update_loop l k = .ok ((P, N, D), k') → P = [] →
        k' = k ∧ N = l ∧ D = [] ∧ cleanExprs l = true := by
      intro l hl
      exact (ih (sizeOf l) hl).2.1 l le_rfl
    have ihK : ∀ l : List (Option String × Expr), sizeOf l < n → ∀ k k' P N D,
        keywords_update_loop l k = .ok ((P, N, D), k') → P = [] →
        k' = k ∧ N = l ∧ D = [] ∧ cleanKws l = true := by
      intro l hl
      exact (ih (sizeOf l) hl).2.2.1 l le_rfl
    have ihO : ∀ l : List (Option Expr), sizeOf l < n → ∀ k k' P N D,
        opt_list_update_loop l k = .ok ((P, N, D), k') → P = [] →
        k' = k ∧ N = l ∧ D = [] ∧ cleanOptExprs l = true := by
      intro l hl
      exact (ih (sizeOf l) hl).2.2.2 l le_rfl
    have wL : ∀ l : List Expr, sizeOf l < n → ∀ k k',
        make_list_field_update l k = .ok (none, k') →
        k' = k ∧ cleanExprs l = true := by
      intro l hl k k' h
      cases l with
      | nil =>
        simp only [make_list_field_update, Except.ok.injEq, Prod.mk.injEq] at h
        exact ⟨h.2.symm, by simp [cleanExprs]⟩
      | cons x rest =>
        simp only [make_list_field_update] at h
        split at h
        · exact absurd h (by simp)
        · rename_i p nn dd k1 heq
          by_cases hp : p.length > 0
          · rw [if_pos hp] at h
            split at h
            · split at h
              · split at h
                · exact absurd h (by simp)
                · exact absurd h (by simp)
              · exact absurd h (by simp)
            · exact absurd h (by simp)
          · rw [if_neg hp] at h
            simp only [Except.ok.injEq, Prod.mk.injEq] at h
            have hpnil : p = [] := by
              cases p
              · rfl
              · simp at hp
            obtain ⟨hk1, -, -, hclean⟩ := ihL (x :: rest) hl k k1 p nn dd heq hpnil
            have hk' := h.2
            exact ⟨by omega, hclean⟩
    have wK : ∀ l : List (Option String × Expr), sizeOf l < n → ∀ k k',
        make_keywords_field_update l k = .ok (none, k') →
        k' = k ∧ cleanKws l = true := by
      intro l hl k k' h
      cases l with
      | nil =>
        simp only [make_keywords_field_update, Except.ok.injEq, Prod.mk.injEq] at h
        exact ⟨h.2.symm, by simp [cleanKws]⟩
      | cons x rest =>
        simp only [make_keywords_field_update] at h
        split at h
        · exact absurd h (by simp)
        · rename_i p nn dd k1 heq
          by_cases hp : p.length > 0
          · rw [if_pos hp] at h
            split at h
            · split at h
              · split at h
                · exact absurd h (by simp)
                · exact absurd h (by simp)
              · exact absurd h (by simp)
            · exact absurd h (by simp)
          · rw [if_neg hp] at h
            simp only [Except.ok.injEq, Prod.mk.injEq] at h
            have hpnil : p = [] := by
              cases p
              · rfl
              · simp at hp
            obtain ⟨hk1, -, -, hclean⟩ := ihK (x :: rest) hl k k1 p nn dd heq hpnil
            have hk' := h.2
            exact ⟨by omega, hclean⟩
    have wO : ∀ l : List (Option Expr), sizeOf l < n → ∀ k k',
        make_opt_list_field_update l k = .ok (none, k') →
        k' = k ∧ cleanOptExprs l = true := by
      intro l hl k k' h
      cases l with
      | nil =>
        simp only [make_opt_list_field_update, Except.ok.injEq, Prod.mk.injEq] at h
        exact ⟨h.2.symm, by simp [cleanOptExprs]⟩
      | cons x rest =>
        simp only [make_opt_list_field_update] at h
        split at h
        · exact absurd h (by simp)
        · rename_i p nn dd k1 heq
          by_cases hp : p.length > 0
          · rw [if_pos hp] at h
            split at h
            · split at h
              · split at h
                · exact absurd h (by simp)
                · exact absurd h (by simp)
              · exact absurd h (by simp)
            · exact absurd h (by simp)
          · rw [if_neg hp] at h
            simp only [Except.ok.injEq, Prod.mk.injEq] at h
            have hpnil : p = [] := by
              cases p
              · rfl
              · simp at hp
            obtain ⟨hk1, -, -, hclean⟩ := ihO (x :: rest) hl k k1 p nn dd heq hpnil
            have hk' := h.2
            exact ⟨by omega, hclean⟩
    refine ⟨?_, ?_, ?_, ?_⟩
    · -- expressions
      intro e hsize k k' h
      rw [make_single_field_update] at h
      split at h
      · exact absurd h (by simp)
      · exact absurd h (by simp)
      · rename_i k1 heq
        have hguards : k1 = k ∧ has_args_unpacking e = false ∧
            has_kwargs_unpacking e = false := by
          by_cases hc : (isArgUnpackNode e || isKwArgUnpackNode e) = true
          · rw [if_pos hc] at heq
            obtain ⟨hk, h1, h2⟩ := mvnu_none heq
            exact ⟨hk, guard_args_false h1, guard_kwargs_false h2⟩
          · rw [if_neg hc] at heq
            simp only [Except.ok.injEq, Prod.mk.injEq] at heq
            have hcc : isArgUnpackNode e = false ∧ isKwArgUnpackNode e = false := by
              constructor
              · cases ha : isArgUnpackNode e
                · rfl
                · exact absurd (by simp [ha]) hc
              · cases hb : isKwArgUnpackNode e
                · rfl
                · exact absurd (by simp [hb]) hc
            exact ⟨heq.2.symm, has_args_of_not_argnode hcc.1,
              has_kwargs_of_not_kwnode hcc.2⟩
        obtain ⟨hk1, hA, hK⟩ := hguards
        suffices hsub : k' = k1 ∧ cleanChildren e = true by
          refine ⟨hsub.1.trans hk1, ?_⟩
          simp [cleanExpr, hA, hK, hsub.2]
        clear heq
        cases e with
        | Name i c =>
          simp only [sub_fields_update, Except.ok.injEq, Prod.mk.injEq] at h
          exact ⟨h.2.symm, by simp [cleanChildren]⟩
        | Num m =>
          simp only [sub_fields_update, Except.ok.injEq, Prod.mk.injEq] at h
          exact ⟨h.2.symm, by simp [cleanChildren]⟩
        | Str t =>
          simp only [sub_fields_update, Except.ok.injEq, Prod.mk.injEq] at h
          exact ⟨h.2.symm, by simp [cleanChildren]⟩
        | NameConstant b =>
          simp only [sub_fields_update, Except.ok.injEq, Prod.mk.injEq] at h
          exact ⟨h.2.symm, by simp [cleanChildren]⟩
        | Starred v c =>
          have hsv : sizeOf v < n := by
            have : sizeOf v < sizeOf (Expr.Starred v c) := by simp; omega
            omega
          simp only [sub_fields_update] at h
          split at h
          · exact absurd h (by simp)
          · rename_i r k2 heq2
            obtain ⟨hP, hk'⟩ := finishFields_none h
            cases r with
            | some u =>
              obtain ⟨p, v2, d⟩ := u
              simp only [updP] at hP
              exact absurd hP (make_single_field_update_some heq2).1
            | none =>
              obtain ⟨hk2, hcv⟩ := ihE v hsv _ _ heq2
              exact ⟨by omega, by simp [cleanChildren, hcv]⟩
        | Call f args kws =>
          have hsz : sizeOf f < n ∧ sizeOf args < n ∧ sizeOf kws < n := by
            have : sizeOf f < sizeOf (Expr.Call f args kws) ∧
                sizeOf args < sizeOf (Expr.Call f args kws) ∧
                sizeOf kws < sizeOf (Expr.Call f args kws) := by simp; omega
            omega
          simp only [sub_fields_update] at h
          split at h
          · exact absurd h (by simp)
          · rename_i r1 k1 heq1
            split at h
            · exact absurd h (by simp)
            · rename_i r2 k2 heq2
              split at h
              · exact absurd h (by simp)
              · rename_i r3 k3 heq3
                obtain ⟨hP, hk'⟩ := finishFields_none h
                rw [List.append_eq_nil] at hP
                obtain ⟨hP12, hP3⟩ := hP
                rw [List.append_eq_nil] at hP12
                obtain ⟨hP1, hP2⟩ := hP12
                cases r1 with
                | some u =>
                  simp only [updP] at hP1
                  exact absurd hP1 (make_list_field_update_some heq1).1
                | none =>
                  obtain ⟨hk1, hca⟩ := wL args hsz.2.1 _ _ heq1
                  cases r2 with
                  | some u =>
                    simp only [updP] at hP2
                    exact absurd hP2 (make_single_field_update_some heq2).1
                  | none =>
                    obtain ⟨hk2, hcf⟩ := ihE f hsz.1 _ _ heq2
                    cases r3 with
                    | some u =>
                      simp only [updP] at hP3
                      exact absurd hP3 (make_keywords_field_update_some heq3).1
                    | none =>
                      obtain ⟨hk3, hck⟩ := wK kws hsz.2.2 _ _ heq3
                      exact ⟨by omega, by simp [cleanChildren, hcf, hca, hck]⟩
        | ListE elts c =>
          have hse : sizeOf elts < n := by
            have : sizeOf elts < sizeOf (Expr.ListE elts c) := by simp; omega
            omega
          simp only [sub_fields_update] at h
          split at h
          · exact absurd h (by simp)
          · rename_i r k2 heq2
            obtain ⟨hP, hk'⟩ := finishFields_none h
            cases r with
            | some u =>
              simp only [updP] at hP
              exact absurd hP (make_list_field_update_some heq2).1
            | none =>
              obtain ⟨hk2, hce⟩ := wL elts hse _ _ heq2
              exact ⟨by omega, by simp [cleanChildren, hce]⟩
        | TupleE elts c =>
          have hse : sizeOf elts < n := by
            have : sizeOf elts < sizeOf (Expr.TupleE elts c) := by simp; omega
            omega
          simp only [sub_fields_update] at h
          split at h
          · exact absurd h (by simp)
          · rename_i r k2 heq2
            obtain ⟨hP, hk'⟩ := finishFields_none h
            cases r with
            | some u =>
              simp only [updP] at hP
              exact absurd hP (make_list_field_update_some heq2).1
            | none =>
              obtain ⟨hk2, hce⟩ := wL elts hse _ _ heq2
              exact ⟨by omega, by simp [cleanChildren, hce]⟩
        | SetE elts =>
          have hse : sizeOf elts < n := by
            have : sizeOf elts < sizeOf (Expr.SetE elts) := by simp; try omega
            omega
          simp only [sub_fields_update] at h
          split at h
          · exact absurd h (by simp)
          · rename_i r k2 heq2
            obtain ⟨hP, hk'⟩ := finishFields_none h
            cases r with
            | some u =>
              simp only [updP] at hP
              exact absurd hP (make_list_field_update_some heq2).1
            | none =>
              obtain ⟨hk2, hce⟩ := wL elts hse _ _ heq2
              exact ⟨by omega, by simp [cleanChildren, hce]⟩
        | DictE keys values =>
          have hsz : sizeOf keys < n ∧ sizeOf values < n := by
            have : sizeOf keys < sizeOf (Expr.DictE keys values) ∧
                sizeOf values < sizeOf (Expr.DictE keys values) := by simp; omega
            omega
          simp only [sub_fields_update] at h
          split at h
          · exact absurd h (by simp)
          · rename_i r1 k1 heq1
            split at h
            · exact absurd h (by simp)
            · rename_i r2 k2 heq2
              obtain ⟨hP, hk'⟩ := finishFields_none h
              rw [List.append_eq_nil] at hP
              obtain ⟨hP1, hP2⟩ := hP
              cases r1 with
              | some u =>
                simp only [updP] at hP1
                exact absurd hP1 (make_opt_list_field_update_some heq1).1
              | none =>
                obtain ⟨hk1, hck⟩ := wO keys hsz.1 _ _ heq1
                cases r2 with
                | some u =>
                  simp only [updP] at hP2
                  exact absurd hP2 (make_list_field_update_some heq2).1
                | none =>
                  obtain ⟨hk2, hcv⟩ := wL values hsz.2 _ _ heq2
                  exact ⟨by omega, by simp [cleanChildren, hck, hcv]⟩
        | Attribute v a c =>
          have hsv : sizeOf v < n := by
            have : sizeOf v < sizeOf (Expr.Attribute v a c) := by simp; omega
            omega
          simp only [sub_fields_update] at h
          split at h
          · exact absurd h (by simp)
          · rename_i r k2 heq2
            obtain ⟨hP, hk'⟩ := finishFields_none h
            cases r with
            | some u =>
              simp only [updP] at hP
              exact absurd hP (make_single_field_update_some heq2).1
            | none =>
              obtain ⟨hk2, hcv⟩ := ihE v hsv _ _ heq2
              exact ⟨by omega, by simp [cleanChildren, hcv]⟩
        | Subscript v sl c =>
          have hsz : sizeOf v < n ∧ sizeOf sl < n := by
            have : sizeOf v < sizeOf (Expr.Subscript v sl c) ∧
                sizeOf sl < sizeOf (Expr.Subscript v sl c) := by simp; omega
            omega
          simp only [sub_fields_update] at h
          split at h
          · exact absurd h (by simp)
          · rename_i r1 k1 heq1
            split at h
            · exact absurd h (by simp)
            · rename_i r2 k2 heq2
              obtain ⟨hP, hk'⟩ := finishFields_none h
              rw [List.append_eq_nil] at hP
              obtain ⟨hP1, hP2⟩ := hP
              cases r1 with
              | some u =>
                simp only [updP] at hP1
                exact absurd hP1 (make_single_field_update_some heq1).1
              | none =>
                obtain ⟨hk1, hcs⟩ := ihE sl hsz.2 _ _ heq1
                cases r2 with
                | some u =>
                  simp only [updP] at hP2
                  exact absurd hP2 (make_single_field_update_some heq2).1
                | none =>
                  obtain ⟨hk2, hcv⟩ := ihE v hsz.1 _ _ heq2
                  exact ⟨by omega, by simp [cleanChildren, hcv, hcs]⟩
        | IndexE v =>
          have hsv : sizeOf v < n := by
            have : sizeOf v < sizeOf (Expr.IndexE v) := by simp; try omega
            omega
          simp only [sub_fields_update] at h
          split at h
          · exact absurd h (by simp)
          · rename_i r k2 heq2
            obtain ⟨hP, hk'⟩ := finishFields_none h
            cases r with
            | some u =>
              simp only [updP] at hP
              exact absurd hP (make_single_field_update_some heq2).1
            | none =>
              obtain ⟨hk2, hcv⟩ := ihE v hsv _ _ heq2
              exact ⟨by omega, by simp [cleanChildren, hcv]⟩
        | Lambda ps b =>
          have hsb : sizeOf b < n := by
            have : sizeOf b < sizeOf (Expr.Lambda ps b) := by simp; try omega
            omega
          simp only [sub_fields_update] at h
          split at h
          · exact absurd h (by simp)
          · rename_i r k2 heq2
            split at h
            · obtain ⟨-, hk'⟩ := finishFields_none h
              obtain ⟨hk2, hcb⟩ := ihE b hsb _ _ heq2
              exact ⟨by omega, by simp [cleanChildren, hcb]⟩
            · obtain ⟨hbad, -⟩ := finishFields_none h
              exact absurd hbad (by simp)
    · -- expression-list loop
      intro l hsize k k' P N D h hP
      cases l with
      | nil =>
        simp only [list_update_loop, Except.ok.injEq, Prod.mk.injEq] at h
        obtain ⟨⟨-, hn, hd⟩, hk⟩ := h
        exact ⟨hk.symm, hn.symm, hd.symm, by simp [cleanExprs]⟩
      | cons x rest =>
        have hsz : sizeOf x < n ∧ sizeOf rest < n := by
          have : sizeOf x < sizeOf (x :: rest) ∧
              sizeOf rest < sizeOf (x :: rest) := by simp; omega
          omega
        simp only [list_update_loop] at h
        split at h
        · exact absurd h (by simp)
        · rename_i r k1 heq1
          split at h
          · exact absurd h (by simp)
          · rename_i restP restN restD k2 heq2
            split at h
            · simp only [Except.ok.injEq, Prod.mk.injEq] at h
              obtain ⟨⟨hp, hn, hd⟩, hk⟩ := h
              have hrP : restP = [] := by rw [hp]; exact hP
              obtain ⟨hk2, hrN, hrD, hcr⟩ := ihL rest hsz.2 _ _ _ _ _ heq2 hrP
              obtain ⟨hk1, hcx⟩ := ihE x hsz.1 _ _ heq1
              refine ⟨by omega, ?_, ?_, ?_⟩
              · rw [← hn, hrN]
              · rw [← hd, hrD]
              · simp [cleanExprs, hcx, hcr]
            · rename_i p nf d
              simp only [Except.ok.injEq, Prod.mk.injEq] at h
              obtain ⟨⟨hp, -, -⟩, -⟩ := h
              have : p = [] := by
                have happ : p ++ restP = [] := by rw [hp]; exact hP
                exact (List.append_eq_nil.mp happ).1
              exact absurd this (make_single_field_update_some heq1).1
    · -- keywords loop
      intro l hsize k k' P N D h hP
      cases l with
      | nil =>
        simp only [keywords_update_loop, Except.ok.injEq, Prod.mk.injEq] at h
        obtain ⟨⟨-, hn, hd⟩, hk⟩ := h
        exact ⟨hk.symm, hn.symm, hd.symm, by simp [cleanKws]⟩
      | cons x rest =>
        obtain ⟨a, v⟩ := x
        have hsz : sizeOf v < n ∧ sizeOf rest < n := by
          have : sizeOf v < sizeOf ((a, v) :: rest) ∧
              sizeOf rest < sizeOf ((a, v) :: rest) := by simp; omega
          omega
        simp only [keywords_update_loop] at h
        split at h
        · exact absurd h (by simp)
        · rename_i r k1 heq1
          split at h
          · exact absurd h (by simp)
          · rename_i restP restN restD k2 heq2
            split at h
            · simp only [Except.ok.injEq, Prod.mk.injEq] at h
              obtain ⟨⟨hp, hn, hd⟩, hk⟩ := h
              have hrP : restP = [] := by rw [hp]; exact hP
              obtain ⟨hk2, hrN, hrD, hcr⟩ := ihK rest hsz.2 _ _ _ _ _ heq2 hrP
              obtain ⟨hk1, hcx⟩ := ihE v hsz.1 _ _ heq1
              refine ⟨by omega, ?_, ?_, ?_⟩
              · rw [← hn, hrN]
              · rw [← hd, hrD]
              · simp [cleanKws, hcx, hcr]
            · rename_i p nf d
              simp only [Except.ok.injEq, Prod.mk.injEq] at h
              obtain ⟨⟨hp, -, -⟩, -⟩ := h
              have : p = [] := by
                have happ : p ++ restP = [] := by rw [hp]; exact hP
                exact (List.append_eq_nil.mp happ).1
              exact absurd this (make_single_field_update_some heq1).1
    · -- dict-key loop
      intro l hsize k k' P N D h hP
      cases l with
      | nil =>
        simp only [opt_list_update_loop, Except.ok.injEq, Prod.mk.injEq] at h
        obtain ⟨⟨-, hn, hd⟩, hk⟩ := h
        exact ⟨hk.symm, hn.symm, hd.symm, by simp [cleanOptExprs]⟩
      | cons x rest =>
        cases x with
        | none =>
          simp only [opt_list_update_loop] at h
          exact absurd h (by simp)
        | some key =>
          have hsz : sizeOf key < n ∧ sizeOf rest < n := by
            have : sizeOf key < sizeOf (some key :: rest) ∧
                sizeOf rest < sizeOf (some key :: rest) := by simp; omega
            omega
          simp only [opt_list_update_loop] at h
          split at h
          · exact absurd h (by simp)
          · rename_i r k1 heq1
            split at h
            · exact absurd h (by simp)
            · rename_i restP restN restD k2 heq2
              split at h
              · simp only [Except.ok.injEq, Prod.mk.injEq] at h
                obtain ⟨⟨hp, hn, hd⟩, hk⟩ := h
                have hrP : restP = [] := by rw [hp]; exact hP
                obtain ⟨hk2, hrN, hrD, hcr⟩ := ihO rest hsz.2 _ _ _ _ _ heq2 hrP
                obtain ⟨hk1, hcx⟩ := ihE key hsz.1 _ _ heq1
                refine ⟨by omega, ?_, ?_, ?_⟩
                · rw [← hn, hrN]
                · rw [← hd, hrD]
                · simp [cleanOptExprs, hcx, hcr]
              · rename_i p nf d
                simp only [Except.ok.injEq, Prod.mk.injEq] at h
                obtain ⟨⟨hp, -, -⟩, -⟩ := h
                have : p = [] := by
                  have happ : p ++ restP = [] := by rw [hp]; exact hP
                  exact (List.append_eq_nil.mp happ).1
                exact absurd this (make_single_field_update_some heq1).1

/-- A `None` update certifies the expression clean, at the original
counter. -/
lemma msfu_none_cleanExpr {e : Expr} {k k' : Nat}
    (h : make_single_field_update e k = .ok (none, k')) :
    k' = k ∧ cleanExpr e = true :=
  (msfu_none_clean (sizeOf e)).1 e le_rfl k k' h


/-- A `None` `make_list_field_update` certifies the list clean. -/
lemma mlfu_none_clean {l : List Expr} {k k' : Nat}
    (h : make_list_field_update l k = .ok (none, k')) :
    k' = k ∧ cleanExprs l = true := by
  cases l with
  | nil =>
    simp only [make_list_field_update, Except.ok.injEq, Prod.mk.injEq] at h
    exact ⟨h.2.symm, by simp [cleanExprs]⟩
  | cons x rest =>
    simp only [make_list_field_update] at h
    split at h
    · exact absurd h (by simp)
    · rename_i p nn dd k1 heq
      by_cases hp : p.length > 0
      · rw [if_pos hp] at h
        split at h
        · split at h
          · split at h
            · exact absurd h (by simp)
            · exact absurd h (by simp)
          · exact absurd h (by simp)
        · exact absurd h (by simp)
      · rw [if_neg hp] at h
        simp only [Except.ok.injEq, Prod.mk.injEq] at h
        have hpnil : p = [] := by
          cases p
          · rfl
          · simp at hp
        obtain ⟨hk1, -, -, hclean⟩ :=
          (msfu_none_clean (sizeOf (x :: rest))).2.1 (x :: rest) le_rfl k k1 p nn dd heq hpnil
        have hk' := h.2
        exact ⟨by omega, hclean⟩

/-- A `None` `make_keywords_field_update` certifies the keywords clean. -/
lemma mkwfu_none_clean {l : List (Option String × Expr)} {k k' : Nat}
    (h : make_keywords_field_update l k = .ok (none, k')) :
    k' = k ∧ cleanKws l = true := by
  cases l with
  | nil =>
    simp only [make_keywords_field_update, Except.ok.injEq, Prod.mk.injEq] at h
    exact ⟨h.2.symm, by simp [cleanKws]⟩
  | cons x rest =>
    simp only [make_keywords_field_update] at h
    split at h
    · exact absurd h (by simp)
    · rename_i p nn dd k1 heq
      by_cases hp : p.length > 0
      · rw [if_pos hp] at h
        split at h
        · split at h
          · split at h
            · exact absurd h (by simp)
            · exact absurd h (by simp)
          · exact absurd h (by simp)
        · exact absurd h (by simp)
      · rw [if_neg hp] at h
        simp only [Except.ok.injEq, Prod.mk.injEq] at h
        have hpnil : p = [] := by
          cases p
          · rfl
          · simp at hp
        obtain ⟨hk1, -, -, hclean⟩ :=
          (msfu_none_clean (sizeOf (x :: rest))).2.2.1 (x :: rest) le_rfl k k1 p nn dd heq hpnil
        have hk' := h.2
        exact ⟨by omega, hclean⟩

/-- A `None` `make_opt_list_field_update` certifies the keys clean. -/
lemma moptlfu_none_clean {l : List (Option Expr)} {k k' : Nat}
    (h : make_opt_list_field_update l k = .ok (none, k')) :
    k' = k ∧ cleanOptExprs l = true := by
  cases l with
  | nil =>
    simp only [make_opt_list_field_update, Except.ok.injEq, Prod.mk.injEq] at h
    exact ⟨h.2.symm, by simp [cleanOptExprs]⟩
  | cons x rest =>
    simp only [make_opt_list_field_update] at h
    split at h
    · exact absurd h (by simp)
    · rename_i p nn dd k1 heq
      by_cases hp : p.length > 0
      · rw [if_pos hp] at h
        split at h
        · split at h
          · split at h
            · exact absurd h (by simp)
            · exact absurd h (by simp)
          · exact absurd h (by simp)
        · exact absurd h (by simp)
      · rw [if_neg hp] at h
        simp only [Except.ok.injEq, Prod.mk.injEq] at h
        have hpnil : p = [] := by
          cases p
          · rfl
          · simp at hp
        obtain ⟨hk1, -, -, hclean⟩ :=
          (msfu_none_clean (sizeOf (x :: rest))).2.2.2 (x :: rest) le_rfl k k1 p nn dd heq hpnil
        have hk' := h.2
        exact ⟨by omega, hclean⟩

/-! ## Statement-level machinery: list utilities and a depth measure -/

/-- Slice insertion adds exactly the inserted length. -/
lemma insertAt_length (body : List Stmt) (q : Nat) (xs : List Stmt) :
    (insertAt body q xs).length = body.length + xs.length := by
  simp [insertAt]
  omega

/-- Setting a slot to the value it already holds is a no-op. -/
lemma set_same : ∀ (l : List Stmt) (i : Nat) (a : Stmt),
    l[i]? = some a → l.set i a = l := by
  intro l
  induction l with
  | nil =>
    intro i a h
    simp at h
  | cons x rest ih =>
    intro i a h
    cases i with
    | zero =>
      simp at h
      rw [h]
      rfl
    | succ j =>
      simp at h
      simp [List.set]
      exact ih j a h

/-- Inserting at the boundary of a decomposed list. -/
lemma insertAt_append (done rest xs : List Stmt) :
    insertAt (done ++ rest) done.length xs = done ++ xs ++ rest := by
  simp [insertAt, List.take_left, List.drop_left, List.append_assoc]

/-- Setting the slot right after `done` in a decomposed list. -/
lemma set_append_cons : ∀ (done : List Stmt) (a b : Stmt) (rest : List Stmt),
    (done ++ a :: rest).set done.length b = done ++ b :: rest := by
  intro done
  induction done with
  | nil => intro a b rest; rfl
  | cons x ds ih =>
    intro a b rest
    simp only [List.cons_append, List.length_cons, List.set]
    exact congrArg (x :: ·) (ih a b rest)

/-- Reading the slot right after `done` in a decomposed list. -/
lemma getElem?_append_len (done : List Stmt) (a : Stmt) (rest : List Stmt) :
    (done ++ a :: rest)[done.length]? = some a := by
  rw [List.getElem?_append_right le_rfl]
  simp

mutual

/-- Nesting depth of statement-list blocks below one statement (the
measure that relates the recursion budget to the tree shape). -/
def stmtDepth : Stmt → Nat
  | .FunctionDef _ _ fbody _ => blockDepth fbody + 1
  | .IfStmt _ b o => max (blockDepth b) (blockDepth o) + 1
  | _ => 0
termination_by s => (sizeOf s, 1)

/-- Nesting depth of statement-list blocks in a block. -/
def blockDepth : List Stmt → Nat
  | [] => 0
  | s :: rest => max (stmtDepth s) (blockDepth rest)
termination_by l => (sizeOf l, 0)

end

/-- `cleanStmts` distributes over append. -/
lemma cleanStmts_append : ∀ (a b : List Stmt),
    cleanStmts (a ++ b) = (cleanStmts a && cleanStmts b) := by
  intro a b
  induction a with
  | nil => simp [cleanStmts]
  | cons x rest ih =>
    simp only [List.cons_append, cleanStmts, ih, Bool.and_assoc]

/-- `blockDepth` distributes over append. -/
lemma blockDepth_append : ∀ (a b : List Stmt),
    blockDepth (a ++ b) = max (blockDepth a) (blockDepth b) := by
  intro a b
  induction a with
  | nil => simp [blockDepth]
  | cons x rest ih =>
    simp only [List.cons_append, blockDepth, ih, Nat.max_assoc]


/-! ## Splice characterisation and length monotonicity -/

/-- A successful splice grows the body by at least the prefix length (and
at most the prefix plus the dels). -/
lemma splice_mono {i : Nat} {st : PassState} {p : Nat} {P D : List Stmt}
    {st' : PassState} {p' : Nat}
    (h : splice i st p P D = .ok (st', p')) :
    st.body.length + P.length ≤ st'.body.length := by
  unfold splice at h
  dsimp only at h
  split at h
  · exact absurd h (by simp)
  · split at h
    · simp only [Except.ok.injEq, Prod.mk.injEq] at h
      obtain ⟨hst, -⟩ := h
      rw [← hst]
      simp [insertAt_length]
    · simp only [Except.ok.injEq, Prod.mk.injEq] at h
      obtain ⟨hst, -⟩ := h
      rw [← hst]
      simp [insertAt_length]
      try omega

/-- A `None` field update leaves the state alone; a `Some` update grows
the body by at least its (non-empty) prefix. -/
lemma updState_mono {i : Nat} {st : PassState} {p : Nat} {node1 : Stmt} {α : Type}
    {r : Option (List Stmt × α × List Stmt)} {st' : PassState} {p' : Nat}
    (h : updState i st p node1 r = .ok (st', p')) :
    st.body.length + (updP r).length ≤ st'.body.length := by
  cases r with
  | none =>
    simp only [updState, Except.ok.injEq, Prod.mk.injEq] at h
    rw [← h.1]
    simp [updP]
  | some u =>
    obtain ⟨pfx, a, dels⟩ := u
    simp only [updState, applyFieldUpd] at h
    have := splice_mono h
    simpa [setNode, updP] using this

/-- On a `None` update the state is returned unchanged. -/
lemma updState_none {i : Nat} {st : PassState} {p : Nat} {node1 : Stmt} {α : Type} :
    updState (α := α) i st p node1 none = .ok (st, p) := rfl

/-- The splice at the statement's own slot, on an aligned state: the
prefix lands right before the node; the dels land right after it unless
the node is a `Return` statement, in which case they are not inserted at
all. -/
lemma splice_at {i : Nat} {st : PassState} {done rest P D : List Stmt} {node : Stmt}
    (hbody : st.body = done ++ node :: rest) (hq : i + st.o = done.length) :
    splice i st done.length P D =
      if isReturnStmt node then
        .ok ({ body := done ++ P ++ node :: rest, o := st.o + P.length,
               T := st.T + P.length }, done.length + P.length)
      else
        .ok ({ body := done ++ P ++ node :: D ++ rest, o := st.o + P.length + 1,
               T := st.T + P.length + D.length }, done.length + P.length) := by
  unfold splice
  dsimp only
  have hins : insertAt st.body (i + st.o) P = done ++ P ++ node :: rest := by
    rw [hbody, hq, insertAt_append done (node :: rest) P]
  have hread : (insertAt st.body (i + st.o) P)[i + (st.o + P.length)]? = some node := by
    rw [hins]
    have hassoc : done ++ P ++ node :: rest = (done ++ P) ++ node :: rest := by
      simp [List.append_assoc]
    rw [hassoc]
    have hidx : i + (st.o + P.length) = (done ++ P).length := by
      simp [List.length_append]
      omega
    rw [hidx]
    exact getElem?_append_len (done ++ P) node rest
  rw [hread]
  dsimp only
  cases hret : isReturnStmt node with
  | true =>
    simp only [if_true]
    rw [hins, if_pos (show i + st.o ≤ done.length by omega)]
  | false =>
    simp only [Bool.false_eq_true, if_false]
    have hins2 : insertAt (insertAt st.body (i + st.o) P) (i + (st.o + P.length + 1)) D =
        done ++ P ++ node :: D ++ rest := by
      rw [hins]
      have hsplit : done ++ P ++ node :: rest = (done ++ P ++ [node]) ++ rest := by
        simp [List.append_assoc]
      rw [hsplit]
      have hidx : i + (st.o + P.length + 1) = (done ++ P ++ [node]).length := by
        simp [List.length_append]
        omega
      rw [hidx, insertAt_append (done ++ P ++ [node]) rest D]
      simp [List.append_assoc]
    rw [if_pos (show i + st.o ≤ done.length by omega)]
    rw [if_neg (show ¬(i + (st.o + P.length + 1) ≤ done.length + P.length) by omega)]
    rw [hins2]


/-- One statement step never shrinks the body. -/
lemma processStmt_mono {d i : Nat} {node : Stmt} {st : PassState} {k : Nat}
    {st' : PassState} {k' : Nat}
    (h : processStmt d i node st k = .ok (st', k')) :
    st.body.length ≤ st'.body.length := by
  cases node with
  | Assign targets value =>
    simp only [processStmt] at h
    split at h
    · exact absurd h (by simp)
    · rename_i r1 k1 heq1
      try dsimp only at h
      split at h
      · exact absurd h (by simp)
      · rename_i st1 p1 hequ1
        split at h
        · exact absurd h (by simp)
        · rename_i r2 k2 heq2
          try dsimp only at h
          split at h
          · exact absurd h (by simp)
          · rename_i st2 p2 hequ2
            simp only [Except.ok.injEq, Prod.mk.injEq] at h
            obtain ⟨hst, -⟩ := h
            have m1 := updState_mono hequ1
            have m2 := updState_mono hequ2
            rw [← hst]
            omega
  | ExprStmt value =>
    simp only [processStmt] at h
    split at h
    · exact absurd h (by simp)
    · rename_i r k1 heq
      try dsimp only at h
      split at h
      · exact absurd h (by simp)
      · rename_i st1 p1 hequ
        simp only [Except.ok.injEq, Prod.mk.injEq] at h
        obtain ⟨hst, -⟩ := h
        have m := updState_mono hequ
        rw [← hst]
        omega
  | Return value =>
    cases value with
    | none =>
      simp only [processStmt, Except.ok.injEq, Prod.mk.injEq] at h
      rw [← h.1]
    | some v =>
      simp only [processStmt] at h
      split at h
      · exact absurd h (by simp)
      · rename_i r k1 heq
        try dsimp only at h
        split at h
        · exact absurd h (by simp)
        · rename_i st1 p1 hequ
          simp only [Except.ok.injEq, Prod.mk.injEq] at h
          obtain ⟨hst, -⟩ := h
          have m := updState_mono hequ
          rw [← hst]
          omega
  | Delete targets =>
    simp only [processStmt] at h
    split at h
    · exact absurd h (by simp)
    · rename_i r k1 heq
      try dsimp only at h
      split at h
      · exact absurd h (by simp)
      · rename_i st1 p1 hequ
        simp only [Except.ok.injEq, Prod.mk.injEq] at h
        obtain ⟨hst, -⟩ := h
        have m := updState_mono hequ
        rw [← hst]
        omega
  | FunctionDef name params fbody decs =>
    simp only [processStmt] at h
    split at h
    · exact absurd h (by simp)
    · rename_i fbody1 k1 heqB
      try dsimp only at h
      split at h
      · exact absurd h (by simp)
      · rename_i r k2 heqD
        try dsimp only at h
        split at h
        · exact absurd h (by simp)
        · rename_i st2 p2 hequ
          simp only [Except.ok.injEq, Prod.mk.injEq] at h
          obtain ⟨hst, -⟩ := h
          have m := updState_mono hequ
          simp only [setNode, List.length_set] at m
          rw [← hst]
          omega
  | IfStmt test tbody orelse =>
    simp only [processStmt] at h
    split at h
    · exact absurd h (by simp)
    · rename_i tbody1 k1 heqB1
      try dsimp only at h
      split at h
      · exact absurd h (by simp)
      · rename_i orelse1 k2 heqB2
        try dsimp only at h
        split at h
        · exact absurd h (by simp)
        · rename_i r k3 heqT
          try dsimp only at h
          split at h
          · exact absurd h (by simp)
          · rename_i st3 p3 hequ
            simp only [Except.ok.injEq, Prod.mk.injEq] at h
            obtain ⟨hst, -⟩ := h
            have m := updState_mono hequ
            simp only [setNode, List.length_set] at m
            rw [← hst]
            omega

/-- One pass never shrinks the body. -/
lemma abuPass_mono {d : Nat} : ∀ (snapshot : List Stmt) (i : Nat) (st : PassState)
    (k : Nat) {out : List Stmt} {k' : Nat},
    abuPass d snapshot i st k = .ok (out, k') → st.body.length ≤ out.length := by
  intro snapshot
  induction snapshot with
  | nil =>
    intro i st k out k' h
    simp only [abuPass, Except.ok.injEq, Prod.mk.injEq] at h
    exact h.1 ▸ le_rfl
  | cons node rest ih =>
    intro i st k out k' h
    simp only [abuPass] at h
    split at h
    · exact absurd h (by simp)
    · rename_i st1 k1 heq
      have m1 := processStmt_mono heq
      have m2 := ih (i + 1) st1 k1 h
      omega

/-- A statement step that did not grow the body performed no splice: the
offsets are unchanged and the statement slot holds a clean statement of
depth within the budget (either the untouched statement itself, or the
statement rebuilt around recursively processed nested blocks). -/
lemma processStmt_nogrow {d i : Nat} {node : Stmt} {st : PassState} {k : Nat}
    {st' : PassState} {k' : Nat}
    (hA : ∀ (body : List Stmt) (kk : Nat) {out : List Stmt} {kk' : Nat},
      apply_body_updates d body kk = .ok (out, kk') →
      cleanStmts out = true ∧ blockDepth out < d)
    (h : processStmt d i node st k = .ok (st', k'))
    (hlen : st'.body.length = st.body.length) :
    st'.o = st.o ∧ st'.T = st.T ∧
      ((st' = st ∧ cleanStmt node = true ∧ stmtDepth node ≤ d) ∨
       (∃ node', st'.body = st.body.set (i + st.T) node' ∧
         cleanStmt node' = true ∧ stmtDepth node' ≤ d)) := by
  cases node with
  | Assign targets value =>
    simp only [processStmt] at h
    split at h
    · exact absurd h (by simp)
    · rename_i r1 k1 heq1
      try dsimp only at h
      split at h
      · exact absurd h (by simp)
      · rename_i st1 p1 hequ1
        split at h
        · exact absurd h (by simp)
        · rename_i r2 k2 heq2
          try dsimp only at h
          split at h
          · exact absurd h (by simp)
          · rename_i st2 p2 hequ2
            simp only [Except.ok.injEq, Prod.mk.injEq] at h
            obtain ⟨hst, -⟩ := h
            have m1 := updState_mono hequ1
            have m2 := updState_mono hequ2
            rw [← hst] at hlen
            have hr1 : updP r1 = [] := by
              rw [← List.length_eq_zero]
              omega
            have hr2 : updP r2 = [] := by
              rw [← List.length_eq_zero]
              omega
            cases r1 with
            | some u =>
              obtain ⟨p, a, dl⟩ := u
              simp only [updP] at hr1
              exact absurd hr1 (make_list_field_update_some heq1).1
            | none =>
              rw [updState_none] at hequ1
              simp only [Except.ok.injEq, Prod.mk.injEq] at hequ1
              obtain ⟨hst1, -⟩ := hequ1
              cases r2 with
              | some u =>
                obtain ⟨p, a, dl⟩ := u
                simp only [updP] at hr2
                exact absurd hr2 (make_single_field_update_some heq2).1
              | none =>
                rw [updState_none] at hequ2
                simp only [Except.ok.injEq, Prod.mk.injEq] at hequ2
                obtain ⟨hst2, -⟩ := hequ2
                have hfin : st' = st := by rw [← hst, ← hst2, ← hst1]
                obtain ⟨-, hct⟩ := mlfu_none_clean heq1
                obtain ⟨-, hcv⟩ := msfu_none_cleanExpr heq2
                refine ⟨by rw [hfin], by rw [hfin], Or.inl ⟨hfin, ?_, ?_⟩⟩
                · simp [cleanStmt, hct, hcv]
                · simp [stmtDepth]
  | ExprStmt value =>
    simp only [processStmt] at h
    split at h
    · exact absurd h (by simp)
    · rename_i r k1 heq
      try dsimp only at h
      split at h
      · exact absurd h (by simp)
      · rename_i st1 p1 hequ
        simp only [Except.ok.injEq, Prod.mk.injEq] at h
        obtain ⟨hst, -⟩ := h
        have m := updState_mono hequ
        rw [← hst] at hlen
        have hr : updP r = [] := by
          rw [← List.length_eq_zero]
          omega
        cases r with
        | some u =>
          obtain ⟨p, a, dl⟩ := u
          simp only [updP] at hr
          exact absurd hr (make_single_field_update_some heq).1
        | none =>
          rw [updState_none] at hequ
          simp only [Except.ok.injEq, Prod.mk.injEq] at hequ
          obtain ⟨hst1, -⟩ := hequ
          have hfin : st' = st := by rw [← hst, ← hst1]
          obtain ⟨-, hcv⟩ := msfu_none_cleanExpr heq
          refine ⟨by rw [hfin], by rw [hfin], Or.inl ⟨hfin, ?_, ?_⟩⟩
          · simp [cleanStmt, hcv]
          · simp [stmtDepth]
  | Return value =>
    cases value with
    | none =>
      simp only [processStmt, Except.ok.injEq, Prod.mk.injEq] at h
      obtain ⟨hst, -⟩ := h
      refine ⟨by rw [← hst], by rw [← hst], Or.inl ⟨hst.symm, ?_, ?_⟩⟩
      · simp [cleanStmt]
      · simp [stmtDepth]
    | some v =>
      simp only [processStmt] at h
      split at h
      · exact absurd h (by simp)
      · rename_i r k1 heq
        try dsimp only at h
        split at h
        · exact absurd h (by simp)
        · rename_i st1 p1 hequ
          simp only [Except.ok.injEq, Prod.mk.injEq] at h
          obtain ⟨hst, -⟩ := h
          have m := updState_mono hequ
          rw [← hst] at hlen
          have hr : updP r = [] := by
            rw [← List.length_eq_zero]
            omega
          cases r with
          | some u =>
            obtain ⟨p, a, dl⟩ := u
            simp only [updP] at hr
            exact absurd hr (make_single_field_update_some heq).1
          | none =>
            rw [updState_none] at hequ
            simp only [Except.ok.injEq, Prod.mk.injEq] at hequ
            obtain ⟨hst1, -⟩ := hequ
            have hfin : st' = st := by rw [← hst, ← hst1]
            obtain ⟨-, hcv⟩ := msfu_none_cleanExpr heq
            refine ⟨by rw [hfin], by rw [hfin], Or.inl ⟨hfin, ?_, ?_⟩⟩
            · simp [cleanStmt, hcv]
            · simp [stmtDepth]
  | Delete targets =>
    simp only [processStmt] at h
    split at h
    · exact absurd h (by simp)
    · rename_i r k1 heq
      try dsimp only at h
      split at h
      · exact absurd h (by simp)
      · rename_i st1 p1 hequ
        simp only [Except.ok.injEq, Prod.mk.injEq] at h
        obtain ⟨hst, -⟩ := h
        have m := updState_mono hequ
        rw [← hst] at hlen
        have hr : updP r = [] := by
          rw [← List.length_eq_zero]
          omega
        cases r with
        | some u =>
          obtain ⟨p, a, dl⟩ := u
          simp only [updP] at hr
          exact absurd hr (make_list_field_update_some heq).1
        | none =>
          rw [updState_none] at hequ
          simp only [Except.ok.injEq, Prod.mk.injEq] at hequ
          obtain ⟨hst1, -⟩ := hequ
          have hfin : st' = st := by rw [← hst, ← hst1]
          obtain ⟨-, hct⟩ := mlfu_none_clean heq
          refine ⟨by rw [hfin], by rw [hfin], Or.inl ⟨hfin, ?_, ?_⟩⟩
          · simp [cleanStmt, hct]
          · simp [stmtDepth]
  | FunctionDef name params fbody decs =>
    simp only [processStmt] at h
    split at h
    · exact absurd h (by simp)
    · rename_i fbody1 k1 heqB
      try dsimp only at h
      split at h
      · exact absurd h (by simp)
      · rename_i r k2 heqD
        try dsimp only at h
        split at h
        · exact absurd h (by simp)
        · rename_i st2 p2 hequ
          simp only [Except.ok.injEq, Prod.mk.injEq] at h
          obtain ⟨hst, -⟩ := h
          have m := updState_mono hequ
          simp only [setNode, List.length_set] at m
          rw [← hst] at hlen
          have hr : updP r = [] := by
            rw [← List.length_eq_zero]
            omega
          cases r with
          | some u =>
            obtain ⟨p, a, dl⟩ := u
            simp only [updP] at hr
            exact absurd hr (make_list_field_update_some heqD).1
          | none =>
            rw [updState_none] at hequ
            simp only [Except.ok.injEq, Prod.mk.injEq] at hequ
            obtain ⟨hst2, -⟩ := hequ
            obtain ⟨hcb, hdb⟩ := hA fbody k heqB
            obtain ⟨-, hcd⟩ := mlfu_none_clean heqD
            have hfin : st' = setNode st (i + st.T) (.FunctionDef name params fbody1 decs) := by
              rw [← hst, ← hst2]
            refine ⟨by rw [hfin]; rfl, by rw [hfin]; rfl,
              Or.inr ⟨.FunctionDef name params fbody1 decs, ?_, ?_, ?_⟩⟩
            · rw [hfin]; rfl
            · simp [cleanStmt, hcb, hcd]
            · simp only [stmtDepth]
              omega
  | IfStmt test tbody orelse =>
    simp only [processStmt] at h
    split at h
    · exact absurd h (by simp)
    · rename_i tbody1 k1 heqB1
      try dsimp only at h
      split at h
      · exact absurd h (by simp)
      · rename_i orelse1 k2 heqB2
        try dsimp only at h
        split at h
        · exact absurd h (by simp)
        · rename_i r k3 heqT
          try dsimp only at h
          split at h
          · exact absurd h (by simp)
          · rename_i st3 p3 hequ
            simp only [Except.ok.injEq, Prod.mk.injEq] at h
            obtain ⟨hst, -⟩ := h
            have m := updState_mono hequ
            simp only [setNode, List.length_set] at m
            rw [← hst] at hlen
            have hr : updP r = [] := by
              rw [← List.length_eq_zero]
              omega
            cases r with
            | some u =>
              obtain ⟨p, a, dl⟩ := u
              simp only [updP] at hr
              exact absurd hr (make_single_field_update_some heqT).1
            | none =>
              rw [updState_none] at hequ
              simp only [Except.ok.injEq, Prod.mk.injEq] at hequ
              obtain ⟨hst3, -⟩ := hequ
              obtain ⟨hcb1, hdb1⟩ := hA tbody k heqB1
              obtain ⟨hcb2, hdb2⟩ := hA orelse k1 heqB2
              obtain ⟨-, hcv⟩ := msfu_none_cleanExpr heqT
              have hfin : st' = setNode (setNode st (i + st.T)
                  (.IfStmt test tbody1 orelse)) (i + st.T)
                  (.IfStmt test tbody1 orelse1) := by
                rw [← hst, ← hst3]
              refine ⟨by rw [hfin]; rfl, by rw [hfin]; rfl,
                Or.inr ⟨.IfStmt test tbody1 orelse1, ?_, ?_, ?_⟩⟩
              · rw [hfin]
                simp [setNode, List.set_set]
              · simp [cleanStmt, hcv, hcb1, hcb2]
              · simp only [stmtDepth]
                omega

/-- A pass that did not grow the body leaves a clean block of depth
within the budget. -/
lemma abuPass_nogrow {d : Nat} : ∀ (snapshot : List Stmt) (i : Nat) (st : PassState)
    (k : Nat) (done : List Stmt) {out : List Stmt} {k' : Nat},
    (∀ (body : List Stmt) (kk : Nat) {o2 : List Stmt} {kk' : Nat},
      apply_body_updates d body kk = .ok (o2, kk') →
      cleanStmts o2 = true ∧ blockDepth o2 < d) →
    abuPass d snapshot i st k = .ok (out, k') →
    out.length = st.body.length →
    st.o = 0 → st.T = 0 →
    st.body = done ++ snapshot → done.length = i →
    cleanStmts done = true → blockDepth done ≤ d →
    cleanStmts out = true ∧ blockDepth out ≤ d := by
  intro snapshot
  induction snapshot with
  | nil =>
    intro i st k done out k' hA h hlen ho hT hbody hdl hcd hdd
    simp only [abuPass, Except.ok.injEq, Prod.mk.injEq] at h
    have hout : out = done := by
      rw [← h.1, hbody]
      simp
    rw [hout]
    exact ⟨hcd, hdd⟩
  | cons node rest ih =>
    intro i st k done out k' hA h hlen ho hT hbody hdl hcd hdd
    simp only [abuPass] at h
    split at h
    · exact absurd h (by simp)
    · rename_i st1 k1 heqS
      have m1 := processStmt_mono heqS
      have m2 := abuPass_mono rest (i + 1) st1 k1 h
      have hlen1 : st1.body.length = st.body.length := by omega
      obtain ⟨ho1, hT1, hbranch⟩ := processStmt_nogrow hA heqS hlen1
      rcases hbranch with ⟨hst1, hcn, hdn⟩ | ⟨node', hset, hcn, hdn⟩
      · refine ih (i + 1) st1 k1 (done ++ [node]) hA h (by rw [hst1]; omega)
          (by rw [hst1]; exact ho) (by rw [hst1]; exact hT) ?_ ?_ ?_ ?_
        · rw [hst1, hbody]
          simp
        · simp [hdl]
        · simp [cleanStmts_append, cleanStmts, hcd, hcn]
        · simp only [blockDepth_append, blockDepth]
          omega
      · have hbody1 : st1.body = (done ++ [node']) ++ rest := by
          rw [hset, hT, Nat.add_zero, ← hdl, hbody, set_append_cons]
          simp
        refine ih (i + 1) st1 k1 (done ++ [node']) hA h (by omega)
          (by rw [ho1]; exact ho) (by rw [hT1]; exact hT) hbody1 ?_ ?_ ?_
        · simp [hdl]
        · simp [cleanStmts_append, cleanStmts, hcd, hcn]
        · simp only [blockDepth_append, blockDepth]
          omega

/-- Any successful run of the fixed-point loop either exited immediately
on its entry length, or returns the output of a final pass that left the
statement count unchanged, from a loop entry within the overflow bound. -/
lemma abuLoop_extract {d init : Nat} : ∀ (fuel : Nat) (body : List Stmt)
    (prev : Option Nat) (k : Nat) {out : List Stmt} {k' : Nat},
    abuLoop d init fuel body prev k = .ok (out, k') →
    (prev = some body.length ∧ out = body ∧ k' = k) ∨
    (∃ b kb, abuPass d b 0 { body := b, o := 0, T := 0 } kb = .ok (out, k') ∧
      out.length = b.length ∧ b.length ≤ init * 100) := by
  intro fuel
  induction fuel with
  | zero =>
    intro body prev k out k' h
    rw [abuLoop] at h
    split at h
    · rename_i hprev
      simp only [Except.ok.injEq, Prod.mk.injEq] at h
      exact Or.inl ⟨hprev, h.1.symm, h.2.symm⟩
    · split at h
      · exact absurd h (by simp)
      · try dsimp only at h
        exact absurd h (by simp)
  | succ fuel ihf =>
    intro body prev k out k' h
    rw [abuLoop] at h
    split at h
    · rename_i hprev
      simp only [Except.ok.injEq, Prod.mk.injEq] at h
      exact Or.inl ⟨hprev, h.1.symm, h.2.symm⟩
    · rename_i hprev
      split at h
      · exact absurd h (by simp)
      · rename_i hover
        try dsimp only at h
        split at h
        · exact absurd h (by simp)
        · rename_i b1 k1 heqP
          rcases ihf b1 (some body.length) k1 h with ⟨hpr, hout, hk⟩ | hr
          · simp only [Option.some.injEq] at hpr
            refine Or.inr ⟨body, k, ?_, ?_, ?_⟩
            · rw [← hout, ← hk] at heqP
              exact heqP
            · rw [hout]
              omega
            · omega
          · exact Or.inr hr

/-- A successful `apply_body_updates` returns a clean block whose nested
block depth is below the recursion budget. -/
lemma abu_clean : ∀ (d : Nat) (body : List Stmt) (k : Nat) {out : List Stmt} {k' : Nat},
    apply_body_updates d body k = .ok (out, k') →
    cleanStmts out = true ∧ blockDepth out < d := by
  intro d
  induction d with
  | zero =>
    intro body k out k' h
    rw [apply_body_updates] at h
    exact absurd h (by simp)
  | succ d ihd =>
    intro body k out k' h
    rw [apply_body_updates] at h
    rcases abuLoop_extract (100 * body.length + 3) body none k h with
      ⟨hfalse, -, -⟩ | ⟨b, kb, hpass, hlen, -⟩
    · exact absurd hfalse (by simp)
    · have hres := abuPass_nogrow b 0 { body := b, o := 0, T := 0 } kb []
        (fun body kk {o2} {kk'} hh => ihd body kk hh) hpass hlen rfl rfl (by simp) rfl
        (by simp [cleanStmts]) (by simp [blockDepth])
      exact ⟨hres.1, Nat.lt_succ_of_le hres.2⟩


/-! ## Clean blocks are fixed points -/

/-- On a clean statement whose slot is aligned, one statement step is the
identity (given that nested clean blocks are fixed points of the
recursive call). -/
lemma processStmt_clean_id {d i : Nat} {node : Stmt} {st : PassState} {k : Nat}
    (hB : ∀ (body : List Stmt) (kk : Nat), cleanStmts body = true → blockDepth body < d →
      apply_body_updates d body kk = .ok (body, kk))
    (hclean : cleanStmt node = true) (hdepth : stmtDepth node ≤ d)
    (hslot : st.body[i + st.T]? = some node) :
    processStmt d i node st k = .ok (st, k) := by
  cases node with
  | Assign targets value =>
    have hc : cleanExprs targets = true ∧ cleanExpr value = true := by
      simpa [cleanStmt, Bool.and_eq_true] using hclean
    simp only [processStmt, cleanExprs_mlfu hc.1 k, cleanExpr_msfu hc.2 k,
      updField, updState]
  | ExprStmt value =>
    have hc : cleanExpr value = true := by
      simpa [cleanStmt] using hclean
    simp only [processStmt, cleanExpr_msfu hc k, updField, updState]
  | Return value =>
    cases value with
    | none => simp only [processStmt]
    | some v =>
      have hc : cleanExpr v = true := by
        simpa [cleanStmt] using hclean
      simp only [processStmt, cleanExpr_msfu hc k, updField, updState]
  | Delete targets =>
    have hc : cleanExprs targets = true := by
      simpa [cleanStmt] using hclean
    simp only [processStmt, cleanExprs_mlfu hc k, updField, updState]
  | FunctionDef name params fbody decs =>
    have hc : cleanStmts fbody = true ∧ cleanExprs decs = true := by
      simpa [cleanStmt, Bool.and_eq_true] using hclean
    have hdb : blockDepth fbody < d := by
      simp only [stmtDepth] at hdepth
      omega
    have hsetid : setNode st (i + st.T) (.FunctionDef name params fbody decs) = st := by
      simp only [setNode, set_same _ _ _ hslot]
    simp only [processStmt, hB fbody k hc.1 hdb, cleanExprs_mlfu hc.2 k,
      updField, updState, hsetid]
  | IfStmt test tbody orelse =>
    have hc : cleanExpr test = true ∧ cleanStmts tbody = true ∧
        cleanStmts orelse = true := by
      simpa [cleanStmt, Bool.and_eq_true, and_assoc] using hclean
    have hdb : blockDepth tbody < d ∧ blockDepth orelse < d := by
      simp only [stmtDepth] at hdepth
      constructor <;> omega
    have hsetid : setNode st (i + st.T) (.IfStmt test tbody orelse) = st := by
      simp only [setNode, set_same _ _ _ hslot]
    simp only [processStmt, hB tbody k hc.2.1 hdb.1, hB orelse k hc.2.2 hdb.2,
      cleanExpr_msfu hc.1 k, updField, updState, hsetid]

/-- A pass over a clean block (with depth within budget) is the
identity. -/
lemma abuPass_clean_id {d : Nat} : ∀ (snapshot : List Stmt) (i : Nat) (st : PassState)
    (k : Nat) (done : List Stmt),
    (∀ (body : List Stmt) (kk : Nat), cleanStmts body = true → blockDepth body < d →
      apply_body_updates d body kk = .ok (body, kk)) →
    cleanStmts snapshot = true → blockDepth snapshot ≤ d →
    st.body = done ++ snapshot → done.length = i → st.T = 0 →
    abuPass d snapshot i st k = .ok (st.body, k) := by
  intro snapshot
  induction snapshot with
  | nil =>
    intro i st k done hB hc hd hbody hdl hT
    simp only [abuPass]
  | cons node rest ih =>
    intro i st k done hB hc hd hbody hdl hT
    have hcn : cleanStmt node = true ∧ cleanStmts rest = true := by
      simpa [cleanStmts, Bool.and_eq_true] using hc
    have hdn : stmtDepth node ≤ d ∧ blockDepth rest ≤ d := by
      simp only [blockDepth] at hd
      exact Nat.max_le.mp hd
    have hslot : st.body[i + st.T]? = some node := by
      rw [hT, Nat.add_zero, hbody, ← hdl]
      exact getElem?_append_len done node rest
    simp only [abuPass, processStmt_clean_id hB hcn.1 hdn.1 hslot]
    exact ih (i + 1) st k (done ++ [node]) hB hcn.2 hdn.2
      (by rw [hbody]; simp) (by simp [hdl]) hT

/-- A clean block with nesting depth within the recursion budget is a
fixed point of `apply_body_updates`, at any counter. -/
lemma abu_clean_id : ∀ (d : Nat) (body : List Stmt) (k : Nat),
    cleanStmts body = true → blockDepth body < d →
    apply_body_updates d body k = .ok (body, k) := by
  intro d
  induction d with
  | zero =>
    intro body k hc hd
    exact absurd hd (by omega)
  | succ d ihd =>
    intro body k hc hd
    rw [apply_body_updates]
    have hpass : abuPass d body 0 { body := body, o := 0, T := 0 } k =
        .ok (body, k) :=
      abuPass_clean_id body 0 { body := body, o := 0, T := 0 } k [] ihd hc
        (by omega) rfl rfl rfl
    rw [abuLoop]
    rw [if_neg (by simp)]
    rw [if_neg (by omega)]
    split
    · rename_i heq
      rw [hpass] at heq
      exact absurd heq (by simp)
    · rename_i b1 k1 heq
      rw [hpass] at heq
      simp only [Except.ok.injEq, Prod.mk.injEq] at heq
      obtain ⟨hb1, hk1⟩ := heq
      rw [← hb1, ← hk1, abuLoop]
      rw [if_pos rfl]


/-! ## Concrete runs of the whole fixer -/

/-- `isinstance(node, ast.Delete)`. -/
def isDeleteStmt : Stmt → Bool
  | .Delete _ => true
  | _ => false

/-- Step 1 of the concrete run: the `Return` statement using
`f(*a, 1, *b)` is expanded, its prefix is spliced in front of it, and —
because the statement is a `Return` — no deletion is inserted. -/
lemma processStmt_c8_step1 :
    processStmt 0 0 (.Return (some exCall))
      { body := [.Return (some exCall), .ExprStmt (.Name "x" .Load)], o := 0, T := 0 } 0 =
      .ok ({ body := exPrefix ++ [.Return (some exCallNew), .ExprStmt (.Name "x" .Load)],
             o := 4, T := 4 }, 1) := by
  simp only [processStmt, msfu_exCall, updField, updState, applyFieldUpd, setNode]
  simp [splice, insertAt, isReturnStmt, exPrefix, exCallNew]

/-- The expanded block is clean. -/
lemma c8_out_clean :
    cleanStmts (exPrefix ++ [.Return (some exCallNew), .ExprStmt (.Name "x" .Load)]) =
      true := by
  simp [exPrefix, exCallNew, cleanStmts, cleanStmt, cleanExpr, cleanChildren,
    cleanExprs, cleanKws, has_args_unpacking, has_kwargs_unpacking, scanStarred,
    scanKwStarred, isStarredNode, upgArgsName]

/-- The expanded block contains no nested blocks. -/
lemma c8_out_depth :
    blockDepth (exPrefix ++ [.Return (some exCallNew), .ExprStmt (.Name "x" .Load)]) =
      0 := by
  simp [exPrefix, exCallNew, blockDepth, stmtDepth]

/-- Step 2 of the concrete run: the trailing expression statement is
clean and is left alone. -/
lemma processStmt_c8_step2 :
    processStmt 0 1 (.ExprStmt (.Name "x" .Load))
      { body := exPrefix ++ [.Return (some exCallNew), .ExprStmt (.Name "x" .Load)],
        o := 4, T := 4 } 1 =
      .ok ({ body := exPrefix ++ [.Return (some exCallNew), .ExprStmt (.Name "x" .Load)],
             o := 4, T := 4 }, 1) :=
  processStmt_clean_id (fun body kk hc hd => absurd hd (by omega))
    (by simp [cleanStmt, cleanExpr, cleanChildren, has_args_unpacking,
      has_kwargs_unpacking])
    (by simp [stmtDepth]) (by rfl)

/-- The first pass over `[return f(*a, 1, *b), x]`. -/
lemma abuPass_c8 :
    abuPass 0 [.Return (some exCall), .ExprStmt (.Name "x" .Load)] 0
      { body := [.Return (some exCall), .ExprStmt (.Name "x" .Load)], o := 0, T := 0 } 0 =
      .ok (exPrefix ++ [.Return (some exCallNew), .ExprStmt (.Name "x" .Load)], 1) := by
  rw [abuPass]
  rw [processStmt_c8_step1]
  dsimp only
  rw [abuPass]
  rw [processStmt_c8_step2]
  dsimp only
  rw [abuPass]

/-- The second pass (over the already-expanded block) changes nothing. -/
lemma abuPass_c8_second (k : Nat) :
    abuPass 0 (exPrefix ++ [.Return (some exCallNew), .ExprStmt (.Name "x" .Load)]) 0
      { body := exPrefix ++ [.Return (some exCallNew), .ExprStmt (.Name "x" .Load)],
        o := 0, T := 0 } k =
      .ok (exPrefix ++ [.Return (some exCallNew), .ExprStmt (.Name "x" .Load)], k) :=
  abuPass_clean_id _ 0 _ k [] (fun body kk hc hd => absurd hd (by omega))
    c8_out_clean (by rw [c8_out_depth]) rfl rfl rfl

/-- The full `apply_body_updates` run on `[return f(*a, 1, *b), x]`:
two passes, then the fixed point is detected. -/
lemma abu_run_c8 :
    apply_body_updates 1 [.Return (some exCall), .ExprStmt (.Name "x" .Load)] 0 =
      .ok (exPrefix ++ [.Return (some exCallNew), .ExprStmt (.Name "x" .Load)], 1) := by
  rw [apply_body_updates]
  rw [abuLoop]
  rw [if_neg (by simp)]
  rw [if_neg (by simp)]
  split
  · rename_i heq
    rw [abuPass_c8] at heq
    exact absurd heq (by simp)
  · rename_i b1 k1 heq
    rw [abuPass_c8] at heq
    simp only [Except.ok.injEq, Prod.mk.injEq] at heq
    obtain ⟨hb1, hk1⟩ := heq
    rw [← hb1, ← hk1]
    rw [abuLoop]
    rw [if_neg (by simp [exPrefix])]
    rw [if_neg (by simp [exPrefix])]
    split
    · rename_i heq2
      rw [abuPass_c8_second] at heq2
      exact absurd heq2 (by simp)
    · rename_i b2 k2 heq2
      rw [abuPass_c8_second] at heq2
      simp only [Except.ok.injEq, Prod.mk.injEq] at heq2
      obtain ⟨hb2, hk2⟩ := heq2
      rw [← hb2, ← hk2]
      rw [abuLoop]
      rw [if_pos rfl]


/-- The input module `[return f(*a, 1, *b), x]` (the use point of the
temporary is a `Return` that is *not* in tail position). -/
def exModuleC8 : Module :=
  { body := [.Return (some exCall), .ExprStmt (.Name "x" .Load)] }

/-- Its expansion: prefix, rewritten return, trailing statement — and no
deletion statement anywhere. -/
def exModuleC8' : Module :=
  { body := exPrefix ++ [.Return (some exCallNew), .ExprStmt (.Name "x" .Load)] }

/-- A successful `apply_body_updates` run determines the fixer result. -/
lemma fixer_eq (d : Nat) (m : Module) {b : List Stmt} {k : Nat}
    (h : apply_body_updates d m.body 0 = .ok (b, k)) :
    unpacking_generalizations_fixer d m = .ok { body := b } := by
  unfold unpacking_generalizations_fixer
  rw [h]

/-- Concrete full-fixer run on `exModuleC8`. -/
lemma fixer_run_c8 :
    unpacking_generalizations_fixer 1 exModuleC8 = .ok exModuleC8' :=
  fixer_eq 1 exModuleC8 abu_run_c8

/-! ## Claim theorem: expansion elimination (C1) -/

/-- **C1.**  Whenever the Structural Expansion Fixer runs to completion
(returns a tree rather than raising), the output tree is clean:
`cleanStmts` conjoins `!has_args_unpacking e && !has_kwargs_unpacking e`
at every expression node of every statement, through all nested blocks,
so no remaining call or literal in the output has unpacking in the
spec's sense. -/
theorem c1_expansion_elimination {d : Nat} {tree out : Module}
    (h : unpacking_generalizations_fixer d tree = .ok out) :
    cleanStmts out.body = true := by
  unfold unpacking_generalizations_fixer at h
  split at h
  · exact absurd h (by simp)
  · rename_i body' k' heq
    simp only [Except.ok.injEq] at h
    rw [← h]
    exact (abu_clean d tree.body 0 heq).1

/-- Witness for C1 at the concrete run on `[return f(*a, 1, *b), x]`. -/
theorem c1_expansion_elimination_witness :
    unpacking_generalizations_fixer 1 exModuleC8 = .ok exModuleC8' ∧
    cleanStmts exModuleC8'.body = true :=
  ⟨fixer_run_c8, c1_expansion_elimination fixer_run_c8⟩

/-! ## Claim theorem: idempotence (C6) -/

/-- **C6.**  The Structural Expansion Fixer is idempotent: a successful
run yields a tree on which a second run (same recursion budget) is the
identity — no further statements are hoisted and no node is replaced. -/
theorem c6_fixer_idempotent {d : Nat} {t u : Module}
    (h : unpacking_generalizations_fixer d t = .ok u) :
    unpacking_generalizations_fixer d u = .ok u := by
  unfold unpacking_generalizations_fixer at h ⊢
  split at h
  · exact absurd h (by simp)
  · rename_i body' k' heq
    simp only [Except.ok.injEq] at h
    obtain ⟨hcb, hdb⟩ := abu_clean d t.body 0 heq
    rw [abu_clean_id d u.body 0 (by rw [← h]; exact hcb) (by rw [← h]; exact hdb)]

/-- Witness for C6: the concrete run on `[return f(*a, 1, *b), x]`
produces a changed tree, and re-running the fixer on it is the
identity. -/
theorem c6_fixer_idempotent_witness :
    unpacking_generalizations_fixer 1 exModuleC8 = .ok exModuleC8' ∧
    unpacking_generalizations_fixer 1 exModuleC8' = .ok exModuleC8' :=
  ⟨fixer_run_c8, c6_fixer_idempotent fixer_run_c8⟩

/-! ## Claim theorem: bounded fixed-point loop (C5, corrected) -/

/-- **C5 counterexample.**  An input whose expansion stays within the
100× bound on which the loop nevertheless raises: expanding the dict
literal `{**a, 1: 2}` (kwargs unpacking present, so a rewrite fires)
meets the non-string key `1` and raises `TypeError` — embedded as the
error `"Invalid dict key"` — so "for every input whose expansion stays
within the bound, the loop terminates normally without raising" is
false. -/
theorem c5_counterexample_within_bound_raises :
    apply_body_updates 1
      [.ExprStmt (.DictE [none, some (.Num 1)] [.Name "a" .Load, .Num 2])] 0 =
      .error "Invalid dict key" := by
  have hmsfu : make_single_field_update
      (.DictE [none, some (.Num 1)] [.Name "a" .Load, .Num 2]) 0 =
      .error "Invalid dict key" := by
    simp [make_single_field_update, make_val_node_update, isArgUnpackNode,
      isKwArgUnpackNode, has_args_unpacking, has_kwargs_unpacking, scanKeyNone,
      expandKwargsChecked, expand_kwargs_unpacking, add_items_stmts,
      kwDictItemStmt, upgKwargsName]
  have hstmt : processStmt 0 0
      (.ExprStmt (.DictE [none, some (.Num 1)] [.Name "a" .Load, .Num 2]))
      { body := [.ExprStmt (.DictE [none, some (.Num 1)] [.Name "a" .Load, .Num 2])],
        o := 0, T := 0 } 0 = .error "Invalid dict key" := by
    simp only [processStmt, hmsfu]
  have hpass : abuPass 0
      [.ExprStmt (.DictE [none, some (.Num 1)] [.Name "a" .Load, .Num 2])] 0
      { body := [.ExprStmt (.DictE [none, some (.Num 1)] [.Name "a" .Load, .Num 2])],
        o := 0, T := 0 } 0 = .error "Invalid dict key" := by
    rw [abuPass]
    rw [hstmt]
  rw [apply_body_updates]
  rw [abuLoop]
  rw [if_neg (by simp)]
  rw [if_neg (by simp)]
  split
  · rename_i heq
    rw [hpass] at heq
    simp only [Except.error.injEq] at heq
    rw [← heq]
  · rename_i b1 k1 heq
    rw [hpass] at heq
    exact absurd heq (by simp)

/-- **C5 (amended).**  (i) Any loop iteration that is not an immediate
fixed-point exit and whose block exceeds 100× the initial length aborts
with the expansion-overflow error.  (ii) A successful run repeats until
the statement count stops changing: its output is the output of a final
pass that left the count unchanged, and stays within the 100× bound.
(iii) An already fully-expanded (clean) block of nesting depth within
the recursion budget terminates normally, unchanged, at any counter
(the loop's iteration budget in this embedding is never the limiting
factor in these cases). -/
theorem c5_loop_guard_fixed_point :
    (∀ (d init fuel : Nat) (body : List Stmt) (prev : Option Nat) (k : Nat),
      prev ≠ some body.length → body.length > init * 100 →
      abuLoop d init fuel body prev k = .error "Expansion overflow") ∧
    (∀ (d : Nat) (body : List Stmt) (k : Nat) (out : List Stmt) (k' : Nat),
      apply_body_updates (d + 1) body k = .ok (out, k') →
      out.length ≤ body.length * 100 ∧
      ∃ b kb, abuPass d b 0 { body := b, o := 0, T := 0 } kb = .ok (out, k') ∧
        out.length = b.length) ∧
    (∀ (d : Nat) (body : List Stmt) (k : Nat),
      cleanStmts body = true → blockDepth body < d →
      apply_body_updates d body k = .ok (body, k)) := by
  refine ⟨?_, ?_, abu_clean_id⟩
  · intro d init fuel body prev k hprev hover
    rw [abuLoop.eq_def]
    rw [if_neg hprev, if_pos hover]
  · intro d body k out k' h
    rw [apply_body_updates] at h
    rcases abuLoop_extract (100 * body.length + 3) body none k h with
      ⟨hf, -, -⟩ | ⟨b, kb, hp, hl, hb⟩
    · exact absurd hf (by simp)
    · exact ⟨by omega, b, kb, hp, hl⟩

/-- Witness for C5 at concrete inputs: a too-long block aborts with the
overflow error; the concrete successful run satisfies the bound and the
fixed-point extraction; the clean singleton block is a fixed point. -/
theorem c5_loop_guard_fixed_point_witness :
    abuLoop 0 0 1 [.ExprStmt (.Name "x" .Load)] none 0 =
      .error "Expansion overflow" ∧
    ((exPrefix ++ [Stmt.Return (some exCallNew), .ExprStmt (.Name "x" .Load)]).length ≤
        [Stmt.Return (some exCall), Stmt.ExprStmt (.Name "x" .Load)].length * 100 ∧
      ∃ b kb, abuPass 0 b 0 { body := b, o := 0, T := 0 } kb =
          .ok (exPrefix ++ [Stmt.Return (some exCallNew), .ExprStmt (.Name "x" .Load)], 1) ∧
        (exPrefix ++ [Stmt.Return (some exCallNew), .ExprStmt (.Name "x" .Load)]).length =
          b.length) ∧
    apply_body_updates 1 [.ExprStmt (.Name "x" .Load)] 0 =
      .ok ([.ExprStmt (.Name "x" .Load)], 0) :=
  ⟨c5_loop_guard_fixed_point.1 0 0 1 [.ExprStmt (.Name "x" .Load)] none 0
      (by simp) (by simp),
   c5_loop_guard_fixed_point.2.1 0 _ 0 _ 1 abu_run_c8,
   c5_loop_guard_fixed_point.2.2 1 [.ExprStmt (.Name "x" .Load)] 0
     (by simp [cleanStmts, cleanStmt, cleanExpr, cleanChildren, has_args_unpacking,
       has_kwargs_unpacking])
     (by simp [blockDepth, stmtDepth])⟩

/-! ## Claim theorem: deletion after use point (C8, corrected) -/

/-- **C8 counterexample.**  In the block `[return f(*a, 1, *b), x]` the
statement that uses the hoisted temporary is a `Return` that is NOT in
tail position (index 4 of 6; an expression statement follows it), yet
the completed fixer emits no deletion statement at all — refuting "in
all other positions (including a return statement that is not in tail
position) the deletion statement is present". -/
theorem c8_counterexample_nontail_return :
    apply_body_updates 1 [.Return (some exCall), .ExprStmt (.Name "x" .Load)] 0 =
      .ok (exPrefix ++ [.Return (some exCallNew), .ExprStmt (.Name "x" .Load)], 1) ∧
    (exPrefix ++ [Stmt.Return (some exCallNew), Stmt.ExprStmt (.Name "x" .Load)]).all
      (fun s => !(isDeleteStmt s)) = true ∧
    (exPrefix ++ [Stmt.Return (some exCallNew), Stmt.ExprStmt (.Name "x" .Load)])[4]? =
      some (.Return (some exCallNew)) ∧
    (exPrefix ++ [Stmt.Return (some exCallNew), Stmt.ExprStmt (.Name "x" .Load)]).length =
      6 :=
  ⟨abu_run_c8, rfl, rfl, rfl⟩

/-- **C8 (amended).**  On an aligned state, splicing the update of a
statement's expression inserts the hoisted prefix immediately before the
statement and the deletion statements immediately after it — for a
non-`Return` statement (here: an expression statement) regardless of
what follows; for a `Return` statement the deletion is skipped REGARDLESS
of position (the source tests `isinstance(body[i + o], ast.Return)`, not
tail position), even when further statements follow the `Return`. -/
theorem c8_del_after_use_unless_return {d i : Nat} {st : PassState}
    {done rest P D : List Stmt} {v v' : Expr} {k k' : Nat}
    (ho : st.o = st.T) (hT : done.length = i + st.T)
    (hupd : make_single_field_update v k = .ok (some (P, v', D), k')) :
    (st.body = done ++ .ExprStmt v :: rest →
      processStmt d i (.ExprStmt v) st k =
        .ok ({ body := done ++ P ++ .ExprStmt v' :: D ++ rest,
               o := st.o + P.length + 1, T := st.T + P.length + D.length }, k')) ∧
    (st.body = done ++ .Return (some v) :: rest →
      processStmt d i (.Return (some v)) st k =
        .ok ({ body := done ++ P ++ .Return (some v') :: rest,
               o := st.o + P.length, T := st.T + P.length }, k')) := by
  constructor
  · intro hbody
    have hb2 : (setNode st done.length (Stmt.ExprStmt v')).body =
        done ++ Stmt.ExprStmt v' :: rest := by
      simp only [setNode]
      rw [hbody]
      exact set_append_cons done _ _ rest
    have hq : i + (setNode st done.length (Stmt.ExprStmt v')).o = done.length := by
      simp only [setNode]
      omega
    simp only [processStmt, hupd, updField, updState, applyFieldUpd]
    rw [show i + st.T = done.length from hT.symm]
    rw [splice_at hb2 hq]
    simp [isReturnStmt, setNode]
  · intro hbody
    have hb2 : (setNode st done.length (Stmt.Return (some v'))).body =
        done ++ Stmt.Return (some v') :: rest := by
      simp only [setNode]
      rw [hbody]
      exact set_append_cons done _ _ rest
    have hq : i + (setNode st done.length (Stmt.Return (some v'))).o = done.length := by
      simp only [setNode]
      omega
    simp only [processStmt, hupd, updField, updState, applyFieldUpd]
    rw [show i + st.T = done.length from hT.symm]
    rw [splice_at hb2 hq]
    simp [isReturnStmt, setNode]

/-- Witness for the amended C8 at `f(*a, 1, *b)` used from an expression
statement (deletion present right after it) and from a non-tail `Return`
(no deletion). -/
theorem c8_del_after_use_unless_return_witness :
    processStmt 0 0 (.ExprStmt exCall)
      { body := [.ExprStmt exCall, .ExprStmt (.Name "y" .Load)], o := 0, T := 0 } 0 =
      .ok ({ body := [] ++ exPrefix ++ .ExprStmt exCallNew ::
               [.Delete [.Name (upgArgsName 0) .Del]] ++ [.ExprStmt (.Name "y" .Load)],
             o := 0 + exPrefix.length + 1,
             T := 0 + exPrefix.length +
               [Stmt.Delete [Expr.Name (upgArgsName 0) .Del]].length }, 1) ∧
    processStmt 0 0 (.Return (some exCall))
      { body := [.Return (some exCall), .ExprStmt (.Name "y" .Load)], o := 0, T := 0 } 0 =
      .ok ({ body := [] ++ exPrefix ++ .Return (some exCallNew) ::
               [.ExprStmt (.Name "y" .Load)],
             o := 0 + exPrefix.length, T := 0 + exPrefix.length }, 1) :=
  ⟨(c8_del_after_use_unless_return rfl rfl msfu_exCall).1 rfl,
   (c8_del_after_use_unless_return rfl rfl msfu_exCall).2 rfl⟩

end ThreeToSix
